import Mathlib

/-!
Verification of the `sort-const` sorting engine (`src/lib.rs`).

The two engines are translated into pure Lean functions:

* `const_quicksort_adv!` becomes `bqsLoop` / `const_quicksort`: the mutable
  slice is a `List α`, a `&mut [T]` sub-slice on the work stack is an
  `(offset, length)` view into that list, and `ArrayVec` with its
  `expect_push` panic becomes an `Option`-returning push, the whole sort
  returning `Except Unit (List α)` (`.error ()` models the
  "ran out of capacity" panic).
* `const_shellsort_adv!` becomes `const_shellsort` over the same list model;
  the `ptr::read`/`ptr::copy`/`ptr::write` hold-aside/shift/place loop
  is modelled by `shiftLoop` (the hole wanders down by `gap` per step).

Loops are written with an explicit fuel argument (structural recursion);
every top-level entry point passes a fuel that is proved sufficient, so the
fuel-exhaustion branches are unreachable there.
-/

set_option maxHeartbeats 1000000
set_option linter.unusedSectionVars false
set_option linter.unusedVariables false

namespace SortConstRs

variable {α : Type} [Inhabited α]

/-- `<[T]>::swap(i, j)`: both reads happen before the writes. -/
def listSwap (l : List α) (i j : Nat) : List α :=
  (l.set i (l.getD j default)).set j (l.getD i default)

/-- Model of `expect_push` (`ArrayVec::try_push` + panic): pushing onto a
stack that already holds `cap` elements fails fatally (`none`). -/
def expect_push {β : Type} (cap : Nat) (s : List β) (x : β) : Option (List β) :=
  if s.length < cap then some (x :: s) else none

/-- The gap table `A366726` from the source. -/
def A366726L : List Nat :=
  [1, 4, 9, 20, 45, 102, 230, 516, 1158, 2599, 5831, 13082, 29351, 65853,
   147748, 331490, 743735, 1668650, 3743800, 8399623, 18845471, 42281871,
   94863989, 212837706, 477524607, 1071378536, 2403754591, 5393085583,
   12099975682, 27147615084, 60908635199, 136655165852]

/-- The slice `arr[off .. off+len]` read out of the backing list. -/
def segOf (arr : List α) (v : Nat × Nat) : List α :=
  (arr.drop v.1).take v.2

/-- Writing a computed slice back into the backing list at `off`
(the in-place mutation of a `&mut` sub-slice). -/
def writeSegAt (arr : List α) (off : Nat) (s : List α) : List α :=
  arr.take off ++ s ++ arr.drop (off + s.length)

/-- The Hoare-style partition scan of `const_quicksort_adv` over
`rest = data[1..]`, with `left`/`right` cursors; `right` is unsigned so the
scan breaks instead of decrementing past 0.  Fuel-structural; fuel
`right + 1 - left` suffices. -/
def partitionLoop (P : α → α → Bool) (pivot : α) :
    Nat → List α → Nat → Nat → List α × Nat
  | 0, rest, left, _ => (rest, left)
  | fuel + 1, rest, left, right =>
    if left ≤ right then
      if P (rest.getD left default) pivot then
        partitionLoop P pivot fuel rest (left + 1) right
      else if !(P (rest.getD right default) pivot) then
        if right = 0 then (rest, left)
        else partitionLoop P pivot fuel rest left (right - 1)
      else
        let rest1 := listSwap rest left right
        if right = 0 then (rest1, left + 1)
        else partitionLoop P pivot fuel rest1 (left + 1) (right - 1)
    else (rest, left)

/-- One whole partition step on a popped sub-slice of length ≥ 3:
first element is the pivot, scan the rest, then `data.swap(0, left)`.
Returns the partitioned slice and the pivot's final index `left`. -/
def partitionAt (P : α → α → Bool) (seg : List α) : List α × Nat :=
  let pivot := seg.getD 0 default
  let rest := seg.tail
  let pr := partitionLoop P pivot rest.length rest 0 (rest.length - 1)
  (listSwap (pivot :: pr.1) 0 pr.2, pr.2)

/-- The direct-compare shortcut for a popped sub-slice of length 2:
`if !cmp!(data[0], data[1]) { data.swap(0, 1); }`. -/
def sortTwo (P : α → α → Bool) (seg : List α) : List α :=
  if !(P (seg.getD 0 default) (seg.getD 1 default)) then listSwap seg 0 1 else seg

/-- The sub-problems pushed after a partition step, in pop order (head =
top of stack).  `off`/`len` describe the popped view, `l` the pivot's final
index.  Mirrors the `match right.split_first_mut()` in the source:
the `len ≤ l` branch is the `None` arm (whole right side of the split
empty), otherwise the larger of `[0,l)` and `(l,len)` is pushed first so
the smaller one is popped first. -/
def pushedViews (off len l : Nat) : List (Nat × Nat) :=
  if len ≤ l then [(off, l)]
  else if len - 1 - l ≤ l then [(off + l + 1, len - 1 - l), (off, l)]
  else [(off, l), (off + l + 1, len - 1 - l)]

/-- Push several elements in the given order, failing fatally like
`expect_push` does. -/
def pushMany {β : Type} (cap : Nat) : List β → List β → Option (List β)
  | s, [] => some s
  | s, x :: xs =>
    match expect_push cap s x with
    | none => none
    | some s1 => pushMany cap s1 xs

/-- The `while let Some(data) = slices.pop()` loop of
`const_quicksort_adv`, with the bounded work stack (head = top).
`.error ()` is the "ran out of capacity" panic. -/
def bqsLoop (P : α → α → Bool) (cap : Nat) :
    Nat → List α → List (Nat × Nat) → Except Unit (List α)
  | 0, _, _ => .error ()
  | _ + 1, arr, [] => .ok arr
  | fuel + 1, arr, v :: s =>
    let len := v.2
    if len ≤ 1 then bqsLoop P cap fuel arr s
    else if len = 2 then
      bqsLoop P cap fuel (writeSegAt arr v.1 (sortTwo P (segOf arr v))) s
    else
      let pr := partitionAt P (segOf arr v)
      let arr1 := writeSegAt arr v.1 pr.1
      match pushMany cap s (pushedViews v.1 len pr.2).reverse with
      | none => .error ()
      | some s1 => bqsLoop P cap fuel arr1 s1

/-- Fuel that is always sufficient for the quicksort loop. -/
def qsFuel (n : Nat) : Nat := 3 ^ n + 1

/-- `const_quicksort_adv!(@cap, data, cmp)`: push the whole sequence
(before any length check), then run the loop.  The source's default for
`cap` is 1024. -/
def const_quicksort (P : α → α → Bool) (cap : Nat) (arr : List α) :
    Except Unit (List α) :=
  match expect_push cap [] ((0, arr.length) : Nat × Nat) with
  | none => .error ()
  | some s => bqsLoop P cap (qsFuel arr.length) arr s

/-- The gap-collection loop of `const_shellsort_adv`: scan the table in
order, pushing while the entry is strictly below the sequence length. -/
def buildGaps (table : List Nat) (n : Nat) : List Nat :=
  match table with
  | [] => []
  | g :: gs => if g < n then g :: buildGaps gs n else []

/-- The shift loop of the gapped insertion sort: while `j ≥ gap` and
`cmp!(temp, arr[j - gap])`, copy `arr[j - gap]` into the hole at `j` and
move the hole down by `gap`.  Fuel-structural; fuel `j + 1` suffices for
any `gap ≥ 1`. -/
def shiftLoop (P : α → α → Bool) (temp : α) :
    Nat → List α → Nat → Nat → List α × Nat
  | 0, arr, _, j => (arr, j)
  | fuel + 1, arr, gap, j =>
    if gap ≤ j ∧ P temp (arr.getD (j - gap) default) = true then
      shiftLoop P temp fuel (arr.set j (arr.getD (j - gap) default)) gap (j - gap)
    else (arr, j)

/-- One gapped insertion: hold `arr[i]` aside (`ptr::read`), shift
(`ptr::copy`), then place the held element into the hole (`ptr::write`). -/
def insertOne (P : α → α → Bool) (arr : List α) (gap i : Nat) : List α :=
  let temp := arr.getD i default
  let pr := shiftLoop P temp (i + 1) arr gap i
  pr.1.set pr.2 temp

/-- The `while i < arr.len()` loop of one gap pass. -/
def iLoop (P : α → α → Bool) (gap : Nat) :
    Nat → Nat → List α → List α
  | 0, _, arr => arr
  | fuel + 1, i, arr =>
    if i < arr.length then iLoop P gap fuel (i + 1) (insertOne P arr gap i)
    else arr

/-- One full pass of the gapped insertion sort for a given gap. -/
def onePass (P : α → α → Bool) (arr : List α) (gap : Nat) : List α :=
  iLoop P gap arr.length gap arr

/-- `while let Some(gap) = gaps.pop()`: the gaps were collected in
ascending order and are popped from the end, so the loop consumes the
REVERSED active-gap list; this function takes that reversed list. -/
def gapLoopRev (P : α → α → Bool) : List Nat → List α → List α
  | [], arr => arr
  | g :: gs, arr => gapLoopRev P gs (onePass P arr g)

/-- `const_shellsort_adv!(@table, data, cmp)`. -/
def const_shellsortWith (table : List Nat) (P : α → α → Bool)
    (arr : List α) : List α :=
  gapLoopRev P (buildGaps table arr.length).reverse arr

/-- `const_shellsort!` with the default gap table `A366726`. -/
def const_shellsort (P : α → α → Bool) (arr : List α) : List α :=
  const_shellsortWith A366726L P arr

/-! ### Verification artifacts (not part of the source translation) -/

/-- The quicksort loop without a capacity bound, instrumented to report the
maximum number of sub-problems simultaneously held on the work stack
(the stack length is sampled at every loop entry, which covers the state
after every push). -/
def uqsLoop (P : α → α → Bool) :
    Nat → List α → List (Nat × Nat) → List α × Nat
  | 0, arr, _ => (arr, 0)
  | _ + 1, arr, [] => (arr, 0)
  | fuel + 1, arr, v :: s =>
    let len := v.2
    let rec0 :=
      if len ≤ 1 then uqsLoop P fuel arr s
      else if len = 2 then
        uqsLoop P fuel (writeSegAt arr v.1 (sortTwo P (segOf arr v))) s
      else
        let pr := partitionAt P (segOf arr v)
        uqsLoop P fuel (writeSegAt arr v.1 pr.1) (pushedViews v.1 len pr.2 ++ s)
    (rec0.1, max (s.length + 1) rec0.2)

/-- The result and maximum stack depth of an (unbounded) quicksort run. -/
def qsRun (P : α → α → Bool) (arr : List α) : List α × Nat :=
  uqsLoop P (qsFuel arr.length) arr [(0, arr.length)]

/-- Maximum work-stack depth reached while quicksorting `arr`. -/
def qsDepth (P : α → α → Bool) (arr : List α) : Nat := (qsRun P arr).2

/-- Functional (recursive) quicksort over a single segment, built from the
same partition step; fuel-structural, `seg.length` fuel suffices. -/
def qsortSegF (P : α → α → Bool) : Nat → List α → List α
  | 0, seg => seg
  | fuel + 1, seg =>
    if seg.length ≤ 1 then seg
    else if seg.length = 2 then sortTwo P seg
    else
      let pr := partitionAt P seg
      qsortSegF P fuel (pr.1.take pr.2) ++
        pr.1.getD pr.2 default :: qsortSegF P fuel (pr.1.drop (pr.2 + 1))

/-- Recursive quicksort of one segment. -/
def qsortSeg (P : α → α → Bool) (seg : List α) : List α :=
  qsortSegF P seg.length seg

/-- A valid strict weak ordering, as assumed by the spec: irreflexive,
transitive, and weakly linear (the standard axiomatization; weak linearity
is equivalent to transitivity of incomparability). -/
structure IsSWO (P : α → α → Bool) : Prop where
  irrefl : ∀ a, P a a = false
  trans : ∀ a b c, P a b = true → P b c = true → P a c = true
  weak_linear : ∀ a b c, P a c = true → P a b = true ∨ P b c = true

/-- "For every adjacent pair `(a, b)` of the sequence, `less(b, a)` is
false" — the sortedness property of the spec, stated positionally. -/
def AdjOK (P : α → α → Bool) (l : List α) : Prop :=
  ∀ i, i + 1 < l.length → P (l.getD (i + 1) default) (l.getD i default) = false

/-- Apply a segment transformer to the `(off, len)` window of a list. -/
def applySeg (f : List α → List α) (v : Nat × Nat) (arr : List α) : List α :=
  writeSegAt arr v.1 (f (segOf arr v))

/-- Recursively quicksort every view of a stack (top first applied last). -/
def applyViews (P : α → α → Bool) (arr : List α) (s : List (Nat × Nat)) : List α :=
  s.foldr (fun v a => applySeg (qsortSeg P) v a) arr

/-- The view lies inside a backing list of length `n`. -/
def vInb (n : Nat) (v : Nat × Nat) : Prop := v.1 + v.2 ≤ n

/-- Two views occupy disjoint index ranges. -/
def vDisj (v w : Nat × Nat) : Prop := v.1 + v.2 ≤ w.1 ∨ w.1 + w.2 ≤ v.1

/-- All views of the work stack are in bounds and pairwise disjoint. -/
def stackOK (n : Nat) (s : List (Nat × Nat)) : Prop :=
  (∀ v ∈ s, vInb n v) ∧ s.Pairwise vDisj

/-- Termination measure of the quicksort work stack. -/
def measureStack (s : List (Nat × Nat)) : Nat :=
  (s.map (fun v => 3 ^ v.2)).sum

/-- `a < b` on naturals as a boolean predicate (a strict total order). -/
def natLt (a b : Nat) : Bool := decide (a < b)

/-- Compare pairs by first component only: a strict weak ordering whose
equivalence classes are nontrivial (pairs with equal first components are
mutually unordered yet distinguishable). -/
def pairFstLt (a b : Nat × Nat) : Bool := decide (a.1 < b.1)

/-- Length-preserving wrapper for the partition write-back (the guard is
never taken at call sites, where segments have length ≥ 3). -/
def partFn (P : α → α → Bool) (seg : List α) : List α :=
  if 1 ≤ seg.length then (partitionAt P seg).1 else seg

/-- Length of the sub-problem at position `i` of the stack (top = head). -/
def sz (s : List (Nat × Nat)) (i : Nat) : Nat := (s.getD i (0, 0)).2

/-- The work-stack shape invariant: each entry below the top holds a
sub-problem at most half the size of the one that spawned it, entries
strictly between top and bottom are nonempty, and the bottom fits in the
whole sequence. -/
def qInv (N : Nat) (s : List (Nat × Nat)) : Prop :=
  (∀ i, i + 1 < s.length → sz s i * 2 ^ (s.length - 2 - i) ≤ N) ∧
  (∀ i, 0 < i → i + 1 < s.length → 1 ≤ sz s i) ∧
  (s ≠ [] → sz s (s.length - 1) ≤ N)

/-! ### Basic lemmas: swap, set, segments -/

theorem set_getD_self (l : List α) (i : Nat) (d : α) :
    l.set i (l.getD i d) = l := by
  induction l generalizing i with
  | nil => rfl
  | cons x t ih =>
    cases i with
    | zero => rfl
    | succ m =>
      simp only [List.getD_cons_succ, List.set_cons_succ]
      rw [ih]

@[simp] theorem length_listSwap (l : List α) (i j : Nat) :
    (listSwap l i j).length = l.length := by
  simp [listSwap]

theorem listSwap_self (l : List α) (i : Nat) : listSwap l i i = l := by
  show (l.set i (l.getD i default)).set i (l.getD i default) = l
  rw [List.set_set, set_getD_self]

theorem getD_listSwap_fst (l : List α) {i j : Nat} (hi : i < l.length)
    (hj : j < l.length) : (listSwap l i j).getD i default = l.getD j default := by
  by_cases h : i = j
  · subst h; rw [listSwap_self]
  · simp only [listSwap]
    rw [List.getD_eq_getElem?_getD, List.getElem?_set_ne (show j ≠ i by omega),
      List.getElem?_set_self (by simpa using hi)]
    rfl

theorem getD_listSwap_snd (l : List α) {i j : Nat} (hi : i < l.length)
    (hj : j < l.length) : (listSwap l i j).getD j default = l.getD i default := by
  simp only [listSwap]
  rw [List.getD_eq_getElem?_getD, List.getElem?_set_self (by simpa using hj)]
  rfl

theorem getD_listSwap_other (l : List α) {i j k : Nat} (hki : k ≠ i)
    (hkj : k ≠ j) : (listSwap l i j).getD k default = l.getD k default := by
  simp only [listSwap]
  rw [List.getD_eq_getElem?_getD, List.getElem?_set_ne (show j ≠ k by omega),
    List.getElem?_set_ne (show i ≠ k by omega), ← List.getD_eq_getElem?_getD]

theorem getD_cons_set_perm (t : List α) (x : α) (d : α) :
    ∀ k, k < t.length → List.Perm (t.getD k d :: t.set k x) (x :: t) := by
  induction t with
  | nil => intro k hk; simp at hk
  | cons y s ih =>
    intro k hk
    cases k with
    | zero => simpa using List.Perm.swap x y s
    | succ m =>
      have hm : m < s.length := by simpa using hk
      simp only [List.getD_cons_succ, List.set_cons_succ]
      exact ((List.Perm.swap y (s.getD m d) (s.set m x)).trans
        ((ih m hm).cons y)).trans (List.Perm.swap x y s)

theorem listSwap_perm_lt (l : List α) {i j : Nat} (hij : i < j)
    (hj : j < l.length) : List.Perm (listSwap l i j) l := by
  induction l generalizing i j with
  | nil => simp at hj
  | cons x t ih =>
    cases i with
    | zero =>
      cases j with
      | zero => omega
      | succ m =>
        have hm : m < t.length := by simpa using hj
        simp only [listSwap, List.getD_cons_succ, List.getD_cons_zero,
          List.set_cons_zero, List.set_cons_succ]
        exact getD_cons_set_perm t x default m hm
    | succ i1 =>
      cases j with
      | zero => omega
      | succ m =>
        have hm : m < t.length := by simpa using hj
        simp only [listSwap, List.getD_cons_succ, List.set_cons_succ]
        exact (ih (by omega) hm).cons x

theorem listSwap_perm (l : List α) {i j : Nat} (hi : i < l.length)
    (hj : j < l.length) : List.Perm (listSwap l i j) l := by
  rcases Nat.lt_trichotomy i j with hij | hij | hij
  · exact listSwap_perm_lt l hij hj
  · subst hij; rw [listSwap_self]
  · have hcomm : listSwap l i j = listSwap l j i := by
      simp only [listSwap]
      rw [List.set_comm _ _ _ (by omega)]
    rw [hcomm]
    exact listSwap_perm_lt l hij hi

theorem cons_set_exchange_perm (t : List α) (x temp : α) :
    ∀ m, m < t.length → List.Perm (temp :: t.set m x) (x :: t.set m temp) := by
  induction t with
  | nil => intro m hm; simp at hm
  | cons y s ih =>
    intro m hm
    cases m with
    | zero => simpa using List.Perm.swap x temp s
    | succ m1 =>
      have hm1 : m1 < s.length := by simpa using hm
      simp only [List.set_cons_succ]
      exact ((List.Perm.swap y temp (s.set m1 x)).trans
        ((ih m1 hm1).cons y)).trans (List.Perm.swap x y (s.set m1 temp))

/-- Moving the hole: overwriting `l[j]` with `l[k]` and then placing `temp`
at `k` is, up to permutation, the same as placing `temp` at `j`. -/
theorem set_set_hole_perm (l : List α) {j k : Nat} (temp : α) (hkj : k < j)
    (hj : j < l.length) :
    List.Perm ((l.set j (l.getD k default)).set k temp) (l.set j temp) := by
  induction l generalizing j k with
  | nil => simp at hj
  | cons x t ih =>
    cases k with
    | zero =>
      cases j with
      | zero => omega
      | succ m =>
        have hm : m < t.length := by simpa using hj
        simp only [List.getD_cons_zero, List.set_cons_succ, List.set_cons_zero]
        exact cons_set_exchange_perm t x temp m hm
    | succ k1 =>
      cases j with
      | zero => omega
      | succ m =>
        have hm : m < t.length := by simpa using hj
        simp only [List.getD_cons_succ, List.set_cons_succ]
        exact (ih (by omega) hm).cons x

/-! ### Segment read/write algebra -/

theorem length_segOf (arr : List α) {off len : Nat} (h : off + len ≤ arr.length) :
    (segOf arr (off, len)).length = len := by
  simp only [segOf, List.length_take, List.length_drop]
  omega

theorem length_writeSegAt (arr : List α) {off : Nat} (s : List α)
    (h : off + s.length ≤ arr.length) :
    (writeSegAt arr off s).length = arr.length := by
  simp only [writeSegAt, List.length_append, List.length_take, List.length_drop]
  omega

theorem writeSegAt_segOf_self (arr : List α) {off len : Nat}
    (h : off + len ≤ arr.length) :
    writeSegAt arr off (segOf arr (off, len)) = arr := by
  have hlen : (segOf arr (off, len)).length = len := length_segOf arr h
  simp only [writeSegAt, hlen]
  simp only [segOf]
  have hdd : arr.drop (off + len) = (arr.drop off).drop len := by
    rw [List.drop_drop]
  rw [hdd, List.append_assoc, List.take_append_drop, List.take_append_drop]

theorem segOf_append_left (A rest : List α) (c len : Nat) :
    segOf (A ++ rest) (A.length + c, len) = segOf rest (c, len) := by
  simp only [segOf, List.drop_append]

theorem writeSegAt_append_left (A rest S : List α) (c : Nat) :
    writeSegAt (A ++ rest) (A.length + c) S = A ++ writeSegAt rest c S := by
  simp only [writeSegAt, List.take_append, Nat.add_assoc, List.drop_append,
    List.append_assoc]

theorem applySeg_append_left (f : List α → List α) (A rest : List α)
    (c len : Nat) :
    applySeg f (A.length + c, len) (A ++ rest) = A ++ applySeg f (c, len) rest := by
  simp only [applySeg, segOf_append_left, writeSegAt_append_left]

theorem segOf_append_right (G D : List α) {c len : Nat} (h : c + len ≤ G.length) :
    segOf (G ++ D) (c, len) = segOf G (c, len) := by
  simp only [segOf]
  rw [List.drop_append_of_le_length (by omega),
    List.take_append_of_le_length (by simp; omega)]

theorem writeSegAt_append_right (G D S : List α) {c : Nat}
    (h : c + S.length ≤ G.length) :
    writeSegAt (G ++ D) c S = writeSegAt G c S ++ D := by
  simp only [writeSegAt]
  rw [List.take_append_of_le_length (by omega),
    List.drop_append_of_le_length (by omega)]
  simp [List.append_assoc]

theorem applySeg_append_right (f : List α → List α) (G D : List α)
    {c len : Nat} (h : c + len ≤ G.length)
    (hf : (f (segOf G (c, len))).length = len) :
    applySeg f (c, len) (G ++ D) = applySeg f (c, len) G ++ D := by
  simp only [applySeg, segOf_append_right G D h]
  exact writeSegAt_append_right G D _ (by rw [hf]; omega)

theorem applySeg_zero (f : List α → List α) (S R : List α)
    (hf : (f S).length = S.length) :
    applySeg f (0, S.length) (S ++ R) = f S ++ R := by
  have hseg : segOf (S ++ R) (0, S.length) = S := by
    simp only [segOf, List.drop_zero, List.take_left]
  simp only [applySeg, hseg, writeSegAt, List.take_zero, List.nil_append,
    Nat.zero_add, hf, List.drop_left]

theorem applySeg_nf (f : List α → List α) (A S R : List α)
    (hf : (f S).length = S.length) :
    applySeg f (A.length, S.length) (A ++ (S ++ R)) = A ++ (f S ++ R) := by
  have h0 : applySeg f (A.length + 0, S.length) (A ++ (S ++ R))
      = A ++ applySeg f (0, S.length) (S ++ R) :=
    applySeg_append_left f A (S ++ R) 0 S.length
  rw [Nat.add_zero] at h0
  rw [h0, applySeg_zero f S R hf]

theorem length_applySeg (f : List α → List α) (arr : List α) {c len : Nat}
    (h : c + len ≤ arr.length) (hf : (f (segOf arr (c, len))).length = len) :
    (applySeg f (c, len) arr).length = arr.length := by
  simp only [applySeg]
  exact length_writeSegAt arr _ (by rw [hf]; omega)

/-- Three-way decomposition of a list around a window. -/
theorem decomp_at (arr : List α) {a la : Nat} (h : a + la ≤ arr.length) :
    arr = arr.take a ++ (segOf arr (a, la) ++ arr.drop (a + la)) := by
  have hdd : arr.drop (a + la) = (arr.drop a).drop la := by rw [List.drop_drop]
  rw [segOf, hdd, List.take_append_drop, List.take_append_drop]

theorem length_take_of_le (arr : List α) {a : Nat} (h : a ≤ arr.length) :
    (arr.take a).length = a := by simp; omega

theorem applySeg_comm_le (f g : List α → List α) {a la b lb : Nat}
    (arr : List α) (hab : a + la ≤ b) (hb : b + lb ≤ arr.length)
    (hf : ∀ s, (f s).length = s.length) (hg : ∀ s, (g s).length = s.length) :
    applySeg f (a, la) (applySeg g (b, lb) arr)
      = applySeg g (b, lb) (applySeg f (a, la) arr) := by
  set A := arr.take a with hA
  set S := segOf arr (a, la) with hS
  set D := arr.drop (a + la) with hD
  have hAlen : A.length = a := length_take_of_le arr (by omega)
  have hSlen : S.length = la := length_segOf arr (by omega)
  have hdec : arr = A ++ (S ++ D) := decomp_at arr (by omega)
  have hfS : (f S).length = S.length := hf S
  have hc : b = A.length + (S.length + (b - a - la)) := by omega
  set c := b - a - la with hcdef
  -- right-hand side: rewrite arr
  rw [hdec]
  have h1 : applySeg f (a, la) (A ++ (S ++ D)) = A ++ (f S ++ D) := by
    rw [show ((a, la) : Nat × Nat) = (A.length, S.length) by rw [hAlen, hSlen]]
    exact applySeg_nf f A S D hfS
  have h2 : applySeg g (b, lb) (A ++ (S ++ D))
      = A ++ (S ++ applySeg g (c, lb) D) := by
    rw [show ((b, lb) : Nat × Nat) = (A.length + (S.length + c), lb) by
      rw [hAlen, hSlen]; exact congrArg (fun x => (x, lb)) (by omega)]
    rw [applySeg_append_left, applySeg_append_left]
  have h3 : applySeg g (b, lb) (A ++ (f S ++ D))
      = A ++ (f S ++ applySeg g (c, lb) D) := by
    rw [show ((b, lb) : Nat × Nat) = (A.length + ((f S).length + c), lb) by
      rw [hAlen, hfS, hSlen]; exact congrArg (fun x => (x, lb)) (by omega)]
    rw [applySeg_append_left, applySeg_append_left]
  have h4 : applySeg f (a, la) (A ++ (S ++ applySeg g (c, lb) D))
      = A ++ (f S ++ applySeg g (c, lb) D) := by
    rw [show ((a, la) : Nat × Nat) = (A.length, S.length) by rw [hAlen, hSlen]]
    exact applySeg_nf f A S _ hfS
  rw [h1, h2, h3, h4]

theorem applySeg_comm (f g : List α → List α) {v w : Nat × Nat}
    (arr : List α) (hd : vDisj v w) (hv : vInb arr.length v)
    (hw : vInb arr.length w)
    (hf : ∀ s, (f s).length = s.length) (hg : ∀ s, (g s).length = s.length) :
    applySeg f v (applySeg g w arr) = applySeg g w (applySeg f v arr) := by
  obtain ⟨a, la⟩ := v
  obtain ⟨b, lb⟩ := w
  rcases hd with h | h
  · exact applySeg_comm_le f g arr h hw hf hg
  · exact (applySeg_comm_le g f arr h hv hg hf).symm

theorem applySeg_nest (f g : List α → List α) {off len a m : Nat}
    (arr : List α) (hv : off + len ≤ arr.length) (ham : a + m ≤ len)
    (hg : (g (segOf arr (off, len))).length = (segOf arr (off, len)).length)
    (hf : ∀ s, (f s).length = s.length) :
    applySeg f (off + a, m) (applySeg g (off, len) arr)
      = applySeg (fun seg => applySeg f (a, m) (g seg)) (off, len) arr := by
  set A := arr.take off with hA
  set S := segOf arr (off, len) with hS
  set D := arr.drop (off + len) with hD
  have hAlen : A.length = off := length_take_of_le arr (by omega)
  have hSlen : S.length = len := length_segOf arr hv
  have hdec : arr = A ++ (S ++ D) := decomp_at arr hv
  have hgS : (g S).length = len := by rw [hg, hSlen]
  rw [hdec]
  have h1 : applySeg g (off, len) (A ++ (S ++ D)) = A ++ (g S ++ D) := by
    rw [show ((off, len) : Nat × Nat) = (A.length, S.length) by rw [hAlen, hSlen]]
    exact applySeg_nf g A S D (by rw [hgS, hSlen])
  rw [h1]
  have h2 : applySeg f (off + a, m) (A ++ (g S ++ D))
      = A ++ (applySeg f (a, m) (g S) ++ D) := by
    rw [show ((off + a, m) : Nat × Nat) = (A.length + a, m) by rw [hAlen]]
    rw [applySeg_append_left]
    congr 1
    exact applySeg_append_right f (g S) D (by omega)
      (by rw [hf]; exact length_segOf (g S) (by omega))
  rw [h2]
  have h3 : applySeg (fun seg => applySeg f (a, m) (g seg)) (off, len)
      (A ++ (S ++ D)) = A ++ (applySeg f (a, m) (g S) ++ D) := by
    rw [show ((off, len) : Nat × Nat) = (A.length, S.length) by rw [hAlen, hSlen]]
    exact applySeg_nf _ A S D
      (by
        show (applySeg f (a, m) (g S)).length = S.length
        rw [length_applySeg f (g S) (by omega)
          (by rw [hf]; exact length_segOf (g S) (by omega)), hgS, hSlen])
  rw [h3]

/-! ### Partition loop lemmas -/

theorem partitionLoop_length (P : α → α → Bool) (pivot : α) :
    ∀ (fuel : Nat) (rest : List α) (left right : Nat),
    (partitionLoop P pivot fuel rest left right).1.length = rest.length := by
  intro fuel
  induction fuel with
  | zero => intro rest left right; rfl
  | succ f ih =>
    intro rest left right
    simp only [partitionLoop]
    split
    · split
      · rw [ih]
      · split
        · split
          · rfl
          · rw [ih]
        · split
          · simp
          · rw [ih, length_listSwap]
    · rfl

theorem partitionLoop_left_le (P : α → α → Bool) (pivot : α) :
    ∀ (fuel : Nat) (rest : List α) (left right : Nat),
    left ≤ right + 1 → right < rest.length →
    (partitionLoop P pivot fuel rest left right).2 ≤ rest.length := by
  intro fuel
  induction fuel with
  | zero =>
    intro rest left right hlr hr
    simp only [partitionLoop]
    omega
  | succ f ih =>
    intro rest left right hlr hr
    by_cases hle : left ≤ right
    · simp only [partitionLoop]
      rw [if_pos hle]
      cases hc1 : P (rest.getD left default) pivot with
      | true =>
        rw [if_pos rfl]
        exact ih rest (left + 1) right (by omega) hr
      | false =>
        rw [if_neg (by simp)]
        cases hc2 : P (rest.getD right default) pivot with
        | false =>
          rw [if_pos (show (!false) = true by rfl)]
          by_cases hr0 : right = 0
          · rw [if_pos hr0]
            show left ≤ rest.length
            omega
          · rw [if_neg hr0]
            exact ih rest left (right - 1) (by omega) (by omega)
        | true =>
          rw [if_neg (by simp)]
          have hne : left ≠ right := by
            intro he
            rw [he, hc2] at hc1
            exact Bool.noConfusion hc1
          by_cases hr0 : right = 0
          · omega
          · rw [if_neg hr0]
            have := ih (listSwap rest left right) (left + 1) (right - 1)
              (by omega) (by rw [length_listSwap]; omega)
            rw [length_listSwap] at this
            exact this
    · simp only [partitionLoop]
      rw [if_neg hle]
      show left ≤ rest.length
      omega

theorem partitionLoop_perm (P : α → α → Bool) (pivot : α) :
    ∀ (fuel : Nat) (rest : List α) (left right : Nat),
    right < rest.length →
    List.Perm (partitionLoop P pivot fuel rest left right).1 rest := by
  intro fuel
  induction fuel with
  | zero => intro rest left right hr; exact List.Perm.refl rest
  | succ f ih =>
    intro rest left right hr
    simp only [partitionLoop]
    split
    · rename_i hle
      split
      · exact ih rest (left + 1) right hr
      · split
        · split
          · exact List.Perm.refl rest
          · exact ih rest left (right - 1) (by omega)
        · split
          · rename_i h1 h2 h3
            exact listSwap_perm rest (by omega) hr
          · rename_i h1 h2 h3
            have hperm := ih (listSwap rest left right) (left + 1) (right - 1)
              (by rw [length_listSwap]; omega)
            exact hperm.trans (listSwap_perm rest (by omega) hr)
    · exact List.Perm.refl rest

theorem partitionLoop_spec (P : α → α → Bool) (pivot : α) :
    ∀ (fuel : Nat) (rest : List α) (left right : Nat),
    right < rest.length → left ≤ right + 1 → right + 1 - left ≤ fuel →
    (∀ k, k < left → P (rest.getD k default) pivot = true) →
    (∀ k, right < k → k < rest.length → P (rest.getD k default) pivot = false) →
    (∀ k, k < (partitionLoop P pivot fuel rest left right).2 →
      P ((partitionLoop P pivot fuel rest left right).1.getD k default) pivot
        = true) ∧
    (∀ k, (partitionLoop P pivot fuel rest left right).2 ≤ k →
      k < rest.length →
      P ((partitionLoop P pivot fuel rest left right).1.getD k default) pivot
        = false) := by
  intro fuel
  induction fuel with
  | zero =>
    intro rest left right hr hlr hfuel hl hhr
    have hleft : left = right + 1 := by omega
    simp only [partitionLoop]
    exact ⟨fun k hk => hl k hk, fun k hk1 hk2 => hhr k (by omega) hk2⟩
  | succ f ih =>
    intro rest left right hr hlr hfuel hl hhr
    by_cases hle : left ≤ right
    · simp only [partitionLoop]
      rw [if_pos hle]
      cases hc1 : P (rest.getD left default) pivot with
      | true =>
        rw [if_pos rfl]
        exact ih rest (left + 1) right hr (by omega) (by omega)
          (fun k hk => by
            rcases Nat.lt_or_ge k left with h | h
            · exact hl k h
            · have hkl : k = left := by omega
              subst hkl; exact hc1)
          hhr
      | false =>
        rw [if_neg (by simp)]
        cases hc2 : P (rest.getD right default) pivot with
        | false =>
          rw [if_pos (show (!false) = true by rfl)]
          by_cases hr0 : right = 0
          · rw [if_pos hr0]
            subst hr0
            have hleft0 : left = 0 := by omega
            subst hleft0
            refine ⟨fun k hk => absurd hk (by omega), fun k hk1 hk2 => ?_⟩
            have hk1' : (0 : Nat) ≤ k := hk1
            rcases Nat.eq_zero_or_pos k with h | h
            · subst h; exact hc2
            · exact hhr k (by omega) hk2
          · rw [if_neg hr0]
            exact ih rest left (right - 1) (by omega) (by omega) (by omega) hl
              (fun k hk1 hk2 => by
                by_cases hkr : k = right
                · subst hkr; exact hc2
                · exact hhr k (by omega) hk2)
        | true =>
          rw [if_neg (by simp)]
          have hne : left ≠ right := by
            intro he
            rw [he, hc2] at hc1
            exact Bool.noConfusion hc1
          by_cases hr0 : right = 0
          · omega
          · rw [if_neg hr0]
            have hswl : (listSwap rest left right).getD left default
                = rest.getD right default :=
              getD_listSwap_fst rest (by omega) hr
            have hswr : (listSwap rest left right).getD right default
                = rest.getD left default :=
              getD_listSwap_snd rest (by omega) hr
            have hswo : ∀ k, k ≠ left → k ≠ right →
                (listSwap rest left right).getD k default
                  = rest.getD k default :=
              fun k h1 h2 => getD_listSwap_other rest h1 h2
            have hres := ih (listSwap rest left right) (left + 1) (right - 1)
              (by rw [length_listSwap]; omega) (by omega) (by omega)
              (fun k hk => by
                rcases Nat.lt_or_ge k left with h | h
                · rw [hswo k (by omega) (by omega)]; exact hl k h
                · have hkl : k = left := by omega
                  subst hkl; rw [hswl]; exact hc2)
              (fun k hk1 hk2 => by
                rw [length_listSwap] at hk2
                by_cases hkr : k = right
                · subst hkr; rw [hswr]; exact hc1
                · rw [hswo k (by omega) hkr]; exact hhr k (by omega) hk2)
            rw [length_listSwap] at hres
            exact hres
    · simp only [partitionLoop]
      rw [if_neg hle]
      have hleft : left = right + 1 := by omega
      exact ⟨fun k hk => hl k hk, fun k hk1 hk2 => hhr k (by omega) hk2⟩

/-! ### Partition step lemmas -/

theorem cons_getD_tail (seg : List α) (h : 1 ≤ seg.length) :
    seg.getD 0 default :: seg.tail = seg := by
  cases seg with
  | nil => simp at h
  | cons x t => rfl

theorem partitionAt_length (P : α → α → Bool) (seg : List α)
    (h : 1 ≤ seg.length) : (partitionAt P seg).1.length = seg.length := by
  simp only [partitionAt, length_listSwap, List.length_cons,
    partitionLoop_length, List.length_tail]
  omega

theorem partitionAt_left_le (P : α → α → Bool) (seg : List α)
    (h : 2 ≤ seg.length) : (partitionAt P seg).2 ≤ seg.length - 1 := by
  simp only [partitionAt]
  have := partitionLoop_left_le P (seg.getD 0 default) seg.tail.length seg.tail
    0 (seg.tail.length - 1) (by omega) (by simp [List.length_tail]; omega)
  simpa [List.length_tail] using this

theorem partitionAt_perm (P : α → α → Bool) (seg : List α)
    (h : 2 ≤ seg.length) : List.Perm (partitionAt P seg).1 seg := by
  simp only [partitionAt]
  have hrl : seg.tail.length = seg.length - 1 := List.length_tail seg
  have hlen : (partitionLoop P (seg.getD 0 default) seg.tail.length seg.tail
      0 (seg.tail.length - 1)).1.length = seg.tail.length :=
    partitionLoop_length P _ _ _ _ _
  have hle : (partitionLoop P (seg.getD 0 default) seg.tail.length seg.tail
      0 (seg.tail.length - 1)).2 ≤ seg.tail.length :=
    partitionLoop_left_le P _ _ _ _ _ (by omega) (by omega)
  have hsw : List.Perm
      (listSwap (seg.getD 0 default ::
        (partitionLoop P (seg.getD 0 default) seg.tail.length seg.tail
          0 (seg.tail.length - 1)).1) 0
        (partitionLoop P (seg.getD 0 default) seg.tail.length seg.tail
          0 (seg.tail.length - 1)).2)
      (seg.getD 0 default ::
        (partitionLoop P (seg.getD 0 default) seg.tail.length seg.tail
          0 (seg.tail.length - 1)).1) :=
    listSwap_perm _ (by simp) (by rw [List.length_cons, hlen]; omega)
  refine hsw.trans ?_
  have hpp : List.Perm
      (partitionLoop P (seg.getD 0 default) seg.tail.length seg.tail
        0 (seg.tail.length - 1)).1 seg.tail :=
    partitionLoop_perm P _ _ _ _ _ (by omega)
  refine (hpp.cons _).trans ?_
  rw [cons_getD_tail seg (by omega)]

theorem partitionAt_spec (P : α → α → Bool) (seg : List α)
    (h : 3 ≤ seg.length) :
    (partitionAt P seg).2 < seg.length ∧
    (partitionAt P seg).1.getD (partitionAt P seg).2 default
      = seg.getD 0 default ∧
    (∀ k, k < (partitionAt P seg).2 →
      P ((partitionAt P seg).1.getD k default) (seg.getD 0 default) = true) ∧
    (∀ k, (partitionAt P seg).2 < k → k < seg.length →
      P ((partitionAt P seg).1.getD k default) (seg.getD 0 default) = false) := by
  have hrl : seg.tail.length = seg.length - 1 := List.length_tail seg
  set pivot := seg.getD 0 default with hpiv
  set pl := partitionLoop P pivot seg.tail.length seg.tail 0
    (seg.tail.length - 1) with hpl
  have hplen : pl.1.length = seg.tail.length := partitionLoop_length P _ _ _ _ _
  have hlle : pl.2 ≤ seg.tail.length :=
    partitionLoop_left_le P _ _ _ _ _ (by omega) (by omega)
  have hspec := partitionLoop_spec P pivot seg.tail.length seg.tail 0
    (seg.tail.length - 1) (by omega) (by omega) (by omega)
    (fun k hk => absurd hk (by omega))
    (fun k hk1 hk2 => absurd hk2 (by omega))
  obtain ⟨hA, hB⟩ := hspec
  rw [← hpl] at hA hB
  have hunfold : partitionAt P seg = (listSwap (pivot :: pl.1) 0 pl.2, pl.2) := by
    simp only [partitionAt]
  rw [hunfold]
  have hcl : (pivot :: pl.1).length = seg.length := by
    simp [hplen]; omega
  refine ⟨by simp; omega, ?_, ?_, ?_⟩
  · show (listSwap (pivot :: pl.1) 0 pl.2).getD pl.2 default = pivot
    rw [getD_listSwap_snd _ (by simp) (by rw [hcl]; omega)]
    rfl
  · intro k hk
    show P ((listSwap (pivot :: pl.1) 0 pl.2).getD k default) pivot = true
    cases k with
    | zero =>
      rw [getD_listSwap_fst _ (by simp) (by rw [hcl]; omega)]
      cases hql : pl.2 with
      | zero => omega
      | succ m =>
        rw [List.getD_cons_succ]
        exact hA m (by omega)
    | succ m =>
      rw [getD_listSwap_other _ (by omega) (by omega), List.getD_cons_succ]
      exact hA m (by omega)
  · intro k hk1 hk2
    show P ((listSwap (pivot :: pl.1) 0 pl.2).getD k default) pivot = false
    cases k with
    | zero => omega
    | succ m =>
      rw [getD_listSwap_other _ (by omega) (by omega), List.getD_cons_succ]
      exact hB m (by omega) (by omega)

/-! ### Index helpers -/

theorem getD_append_lt (A B : List α) {k : Nat} (h : k < A.length) :
    (A ++ B).getD k default = A.getD k default := by
  rw [List.getD_eq_getElem?_getD, List.getElem?_append_left h,
    ← List.getD_eq_getElem?_getD]

theorem getD_append_ge (A B : List α) {k : Nat} (h : A.length ≤ k) :
    (A ++ B).getD k default = B.getD (k - A.length) default := by
  rw [List.getD_eq_getElem?_getD, List.getElem?_append_right h,
    ← List.getD_eq_getElem?_getD]

theorem getD_tail (l : List α) (i : Nat) :
    l.tail.getD i default = l.getD (i + 1) default := by
  cases l with
  | nil => simp [List.getD_nil]
  | cons x t => simp [List.getD_cons_succ]

theorem take_getD_drop (l : List α) {n : Nat} (h : n < l.length) :
    l.take n ++ l.getD n default :: l.drop (n + 1) = l := by
  induction l generalizing n with
  | nil => simp at h
  | cons x t ih =>
    cases n with
    | zero => simp
    | succ m =>
      have hm : m < t.length := by simpa using h
      simp only [List.take_succ_cons, List.getD_cons_succ, List.drop_succ_cons,
        List.cons_append]
      rw [ih hm]

theorem mem_take_spec (l : List α) (n : Nat) {x : α} (hx : x ∈ l.take n) :
    ∃ k, k < n ∧ k < l.length ∧ l.getD k default = x := by
  obtain ⟨i, hi, hgx⟩ := List.getElem_of_mem hx
  have hlen : i < n ∧ i < l.length := by
    have := hi
    simp only [List.length_take] at this
    omega
  refine ⟨i, hlen.1, hlen.2, ?_⟩
  rw [List.getD_eq_getElem l default hlen.2, ← hgx, List.getElem_take]

theorem mem_drop_spec (l : List α) (n : Nat) {x : α} (hx : x ∈ l.drop n) :
    ∃ k, n ≤ k ∧ k < l.length ∧ l.getD k default = x := by
  obtain ⟨i, hi, hgx⟩ := List.getElem_of_mem hx
  have hlen : n + i < l.length := by
    have := hi
    simp only [List.length_drop] at this
    omega
  refine ⟨n + i, by omega, hlen, ?_⟩
  rw [List.getD_eq_getElem l default hlen, ← hgx, List.getElem_drop]

/-! ### Recursive segment quicksort: fuel, length, permutation -/

theorem qsortSegF_fuel_invariant (P : α → α → Bool) :
    ∀ f1 f2 seg, seg.length ≤ f1 → seg.length ≤ f2 →
    qsortSegF P f1 seg = qsortSegF P f2 seg := by
  intro f1
  induction f1 with
  | zero =>
    intro f2 seg h1 h2
    have : seg.length = 0 := by omega
    cases f2 with
    | zero => rfl
    | succ g =>
      simp only [qsortSegF]
      rw [if_pos (by omega)]
  | succ f ih =>
    intro f2 seg h1 h2
    cases f2 with
    | zero =>
      have : seg.length = 0 := by omega
      simp only [qsortSegF]
      rw [if_pos (by omega)]
    | succ g =>
      simp only [qsortSegF]
      by_cases hs1 : seg.length ≤ 1
      · rw [if_pos hs1, if_pos hs1]
      · rw [if_neg hs1, if_neg hs1]
        by_cases hs2 : seg.length = 2
        · rw [if_pos hs2, if_pos hs2]
        · rw [if_neg hs2, if_neg hs2]
          have hlen3 : 3 ≤ seg.length := by omega
          have hpl : (partitionAt P seg).1.length = seg.length :=
            partitionAt_length P seg (by omega)
          have hple : (partitionAt P seg).2 ≤ seg.length - 1 :=
            partitionAt_left_le P seg (by omega)
          have htk : ((partitionAt P seg).1.take (partitionAt P seg).2).length
              ≤ seg.length - 1 := by
            simp only [List.length_take]
            omega
          have hdr : ((partitionAt P seg).1.drop
              ((partitionAt P seg).2 + 1)).length ≤ seg.length - 1 := by
            simp only [List.length_drop]
            omega
          rw [ih g _ (by omega) (by omega), ih g _ (by omega) (by omega)]

theorem qsortSegF_length (P : α → α → Bool) :
    ∀ fuel seg, seg.length ≤ fuel →
    (qsortSegF P fuel seg).length = seg.length := by
  intro fuel
  induction fuel with
  | zero => intro seg h; rfl
  | succ f ih =>
    intro seg h
    simp only [qsortSegF]
    by_cases hs1 : seg.length ≤ 1
    · rw [if_pos hs1]
    · rw [if_neg hs1]
      by_cases hs2 : seg.length = 2
      · rw [if_pos hs2]
        simp only [sortTwo]
        split
        · rw [length_listSwap]
        · rfl
      · rw [if_neg hs2]
        have hlen3 : 3 ≤ seg.length := by omega
        have hpl : (partitionAt P seg).1.length = seg.length :=
          partitionAt_length P seg (by omega)
        have hple : (partitionAt P seg).2 ≤ seg.length - 1 :=
          partitionAt_left_le P seg (by omega)
        simp only [List.length_append, List.length_cons]
        rw [ih _ (by simp only [List.length_take]; omega),
          ih _ (by simp only [List.length_drop]; omega)]
        simp only [List.length_take, List.length_drop]
        omega

theorem qsortSeg_length (P : α → α → Bool) (seg : List α) :
    (qsortSeg P seg).length = seg.length :=
  qsortSegF_length P seg.length seg (Nat.le_refl _)

theorem sortTwo_perm (P : α → α → Bool) (seg : List α) (h : seg.length = 2) :
    List.Perm (sortTwo P seg) seg := by
  simp only [sortTwo]
  split
  · exact listSwap_perm seg (by omega) (by omega)
  · exact List.Perm.refl seg

theorem qsortSegF_perm (P : α → α → Bool) :
    ∀ fuel seg, seg.length ≤ fuel →
    List.Perm (qsortSegF P fuel seg) seg := by
  intro fuel
  induction fuel with
  | zero => intro seg h; exact List.Perm.refl seg
  | succ f ih =>
    intro seg h
    simp only [qsortSegF]
    by_cases hs1 : seg.length ≤ 1
    · rw [if_pos hs1]
    · rw [if_neg hs1]
      by_cases hs2 : seg.length = 2
      · rw [if_pos hs2]
        exact sortTwo_perm P seg hs2
      · rw [if_neg hs2]
        have hlen3 : 3 ≤ seg.length := by omega
        have hpl : (partitionAt P seg).1.length = seg.length :=
          partitionAt_length P seg (by omega)
        have hple : (partitionAt P seg).2 ≤ seg.length - 1 :=
          partitionAt_left_le P seg (by omega)
        have hperm1 : List.Perm
            (qsortSegF P f ((partitionAt P seg).1.take (partitionAt P seg).2))
            ((partitionAt P seg).1.take (partitionAt P seg).2) :=
          ih _ (by simp only [List.length_take]; omega)
        have hperm2 : List.Perm
            (qsortSegF P f
              ((partitionAt P seg).1.drop ((partitionAt P seg).2 + 1)))
            ((partitionAt P seg).1.drop ((partitionAt P seg).2 + 1)) :=
          ih _ (by simp only [List.length_drop]; omega)
        have hjoin := hperm1.append ((List.Perm.refl
          [(partitionAt P seg).1.getD (partitionAt P seg).2 default]).append
          hperm2)
        simp only [List.singleton_append, List.append_assoc] at hjoin
        refine hjoin.trans ?_
        rw [take_getD_drop (partitionAt P seg).1 (by omega)]
        exact partitionAt_perm P seg (by omega)

theorem qsortSeg_perm (P : α → α → Bool) (seg : List α) :
    List.Perm (qsortSeg P seg) seg :=
  qsortSegF_perm P seg.length seg (Nat.le_refl _)

/-! ### Strict-weak-order consequences and sortedness of the segment sort -/

theorem IsSWO.asymm {P : α → α → Bool} (h : IsSWO P) {a b : α}
    (hab : P a b = true) : P b a = false := by
  cases hba : P b a with
  | false => rfl
  | true =>
    have htrans := h.trans a b a hab hba
    rw [h.irrefl a] at htrans
    exact Bool.noConfusion htrans

theorem IsSWO.nP_trans {P : α → α → Bool} (h : IsSWO P) {a b c : α}
    (h1 : P b a = false) (h2 : P c b = false) : P c a = false := by
  cases hca : P c a with
  | false => rfl
  | true =>
    rcases h.weak_linear c b a hca with hcb | hba
    · rw [h2] at hcb; exact Bool.noConfusion hcb
    · rw [h1] at hba; exact Bool.noConfusion hba

theorem adjOK_short (P : α → α → Bool) (l : List α) (h : l.length ≤ 1) :
    AdjOK P l :=
  fun i hi => absurd hi (by omega)

theorem adjOK_pair {P : α → α → Bool} {a b : α} (h : P b a = false) :
    AdjOK P [a, b] := by
  intro i hi
  have hi0 : i = 0 := by simp at hi; omega
  subst hi0
  exact h

theorem adjOK_tail {P : α → α → Bool} {l : List α} (h : AdjOK P l) :
    AdjOK P l.tail := by
  intro i hi
  rw [getD_tail, getD_tail]
  exact h (i + 1) (by simp only [List.length_tail] at hi; omega)

theorem adjOK_pairwise {P : α → α → Bool} (hswo : IsSWO P) {l : List α}
    (hadj : AdjOK P l) :
    ∀ i j, i ≤ j → j < l.length →
    P (l.getD j default) (l.getD i default) = false := by
  intro i j
  induction j with
  | zero =>
    intro hij hj
    have h0 : i = 0 := by omega
    subst h0
    exact hswo.irrefl _
  | succ m ihm =>
    intro hij hj
    by_cases him : i = m + 1
    · subst him; exact hswo.irrefl _
    · have hadj1 : P (l.getD (m + 1) default) (l.getD m default) = false :=
        hadj m (by omega)
      have hbelow : P (l.getD m default) (l.getD i default) = false :=
        ihm (by omega) (by omega)
      exact hswo.nP_trans hbelow hadj1

theorem sortTwo_adjOK {P : α → α → Bool}
    (hasym : ∀ a b, P a b = true → P b a = false) (seg : List α)
    (h : seg.length = 2) : AdjOK P (sortTwo P seg) := by
  obtain ⟨a, b, rfl⟩ := List.length_eq_two.mp h
  cases hab : P a b with
  | true =>
    have hres : sortTwo P [a, b] = [a, b] := by
      simp only [sortTwo, List.getD_cons_zero, List.getD_cons_succ, hab]
      rfl
    rw [hres]
    exact adjOK_pair (hasym a b hab)
  | false =>
    have hres : sortTwo P [a, b] = [b, a] := by
      simp only [sortTwo, List.getD_cons_zero, List.getD_cons_succ, hab]
      rfl
    rw [hres]
    exact adjOK_pair hab

theorem qsortSegF_adjOK {P : α → α → Bool}
    (hasym : ∀ a b, P a b = true → P b a = false) :
    ∀ fuel seg, seg.length ≤ fuel → AdjOK P (qsortSegF P fuel seg) := by
  intro fuel
  induction fuel with
  | zero =>
    intro seg h
    exact adjOK_short P seg (by omega)
  | succ f ih =>
    intro seg h
    simp only [qsortSegF]
    by_cases hs1 : seg.length ≤ 1
    · rw [if_pos hs1]
      exact adjOK_short P seg hs1
    · rw [if_neg hs1]
      by_cases hs2 : seg.length = 2
      · rw [if_pos hs2]
        exact sortTwo_adjOK hasym seg hs2
      · rw [if_neg hs2]
        have hlen3 : 3 ≤ seg.length := by omega
        set pivot := seg.getD 0 default with hpivot
        set pr := partitionAt P seg with hpr
        have hpl : pr.1.length = seg.length := partitionAt_length P seg (by omega)
        obtain ⟨hlt, hpv, hclA, hclB⟩ := partitionAt_spec P seg hlen3
        rw [← hpr] at hlt hpv hclA hclB
        rw [← hpivot] at hpv hclA hclB
        set A := qsortSegF P f (pr.1.take pr.2) with hAdef
        set B := qsortSegF P f (pr.1.drop (pr.2 + 1)) with hBdef
        have htklen : (pr.1.take pr.2).length = pr.2 := by
          simp only [List.length_take]; omega
        have hdrlen : (pr.1.drop (pr.2 + 1)).length = seg.length - pr.2 - 1 := by
          simp only [List.length_drop]; omega
        have hAlen : A.length = pr.2 := by
          rw [hAdef, qsortSegF_length P f _ (by omega), htklen]
        have hBlen : B.length = seg.length - pr.2 - 1 := by
          rw [hBdef, qsortSegF_length P f _ (by omega), hdrlen]
        have hAmem : ∀ x, x ∈ A → P x pivot = true := by
          intro x hx
          have hx2 : x ∈ pr.1.take pr.2 :=
            (qsortSegF_perm P f _ (by omega)).mem_iff.mp (by rw [← hAdef]; exact hx)
          obtain ⟨k, hk1, hk2, hk3⟩ := mem_take_spec _ _ hx2
          rw [← hk3]
          exact hclA k hk1
        have hBmem : ∀ x, x ∈ B → P x pivot = false := by
          intro x hx
          have hx2 : x ∈ pr.1.drop (pr.2 + 1) :=
            (qsortSegF_perm P f _ (by omega)).mem_iff.mp (by rw [← hBdef]; exact hx)
          obtain ⟨k, hk1, hk2, hk3⟩ := mem_drop_spec _ _ hx2
          rw [← hk3]
          exact hclB k (by omega) (by omega)
        have hAadj : AdjOK P A := ih _ (by omega)
        have hBadj : AdjOK P B := ih _ (by omega)
        rw [hpv]
        intro i hi
        have hilen : i + 1 < A.length + 1 + B.length := by
          simp only [List.length_append, List.length_cons] at hi
          omega
        rcases Nat.lt_trichotomy (i + 1) A.length with hc | hc | hc
        · rw [getD_append_lt A _ (by omega), getD_append_lt A _ (by omega)]
          exact hAadj i (by omega)
        · rw [getD_append_ge A _ (by omega), getD_append_lt A _ (by omega), hc,
            Nat.sub_self, List.getD_cons_zero]
          have hmem : A.getD i default ∈ A := by
            rw [List.getD_eq_getElem A default (by omega)]
            exact List.getElem_mem _
          exact hasym _ _ (hAmem _ hmem)
        · rcases Nat.eq_or_lt_of_le hc with hc2 | hc2
          · have hieq : i = A.length := by omega
            subst hieq
            have hone : (pivot :: B).getD 1 default = B.getD 0 default := rfl
            rw [getD_append_ge A _ (by omega), getD_append_ge A _ (by omega),
              show A.length + 1 - A.length = 1 by omega,
              show A.length - A.length = 0 by omega, hone, List.getD_cons_zero]
            have hmem : B.getD 0 default ∈ B := by
              rw [List.getD_eq_getElem B default (by omega)]
              exact List.getElem_mem _
            exact hBmem _ hmem
          · obtain ⟨k, rfl⟩ : ∃ k, i = A.length + 1 + k := ⟨i - A.length - 1, by omega⟩
            rw [getD_append_ge A _ (by omega), getD_append_ge A _ (by omega),
              show A.length + 1 + k + 1 - A.length = k + 1 + 1 by omega,
              show A.length + 1 + k - A.length = k + 1 by omega,
              List.getD_cons_succ, List.getD_cons_succ]
            exact hBadj k (by omega)

theorem qsortSeg_adjOK {P : α → α → Bool}
    (hasym : ∀ a b, P a b = true → P b a = false) (seg : List α) :
    AdjOK P (qsortSeg P seg) :=
  qsortSegF_adjOK hasym seg.length seg (Nat.le_refl _)

/-! ### Sorted input is left unchanged by the segment sort -/

theorem partitionLoop_noop (P : α → α → Bool) (pivot : α) :
    ∀ fuel (rest : List α) (right : Nat), right < rest.length →
    (∀ k, k < rest.length → P (rest.getD k default) pivot = false) →
    right + 1 ≤ fuel →
    partitionLoop P pivot fuel rest 0 right = (rest, 0) := by
  intro fuel
  induction fuel with
  | zero => intro rest right hr hall hfuel; omega
  | succ f ih =>
    intro rest right hr hall hfuel
    simp only [partitionLoop]
    rw [if_pos (Nat.zero_le right)]
    rw [hall 0 (by omega), if_neg (by simp)]
    rw [hall right hr, if_pos (show (!false) = true by rfl)]
    by_cases hr0 : right = 0
    · rw [if_pos hr0]
    · rw [if_neg hr0]
      exact ih rest (right - 1) (by omega) hall (by omega)

theorem partitionAt_sorted_noop {P : α → α → Bool} (hswo : IsSWO P)
    (seg : List α) (h3 : 3 ≤ seg.length) (hadj : AdjOK P seg) :
    partitionAt P seg = (seg, 0) := by
  have hrl : seg.tail.length = seg.length - 1 := List.length_tail seg
  have hall : ∀ k, k < seg.tail.length →
      P (seg.tail.getD k default) (seg.getD 0 default) = false := by
    intro k hk
    rw [getD_tail]
    exact adjOK_pairwise hswo hadj 0 (k + 1) (by omega) (by omega)
  simp only [partitionAt]
  rw [partitionLoop_noop P (seg.getD 0 default) seg.tail.length seg.tail
    (seg.tail.length - 1) (by omega) hall (by omega)]
  show (listSwap (seg.getD 0 default :: seg.tail) 0 0, 0) = (seg, 0)
  rw [listSwap_self, cons_getD_tail seg (by omega)]

theorem qsortSegF_nil (P : α → α → Bool) : ∀ fuel, qsortSegF P fuel ([] : List α) = [] := by
  intro fuel
  cases fuel with
  | zero => rfl
  | succ f =>
    simp only [qsortSegF]
    rw [if_pos (by simp)]

theorem sortTwo_sorted_eq {P : α → α → Bool}
    (hEq : ∀ a b, P a b = false → P b a = false → a = b) (seg : List α)
    (h2 : seg.length = 2) (hadj : AdjOK P seg) : sortTwo P seg = seg := by
  obtain ⟨a, b, rfl⟩ := List.length_eq_two.mp h2
  have hba : P b a = false := hadj 0 (by simp)
  cases hab : P a b with
  | true =>
    simp only [sortTwo, List.getD_cons_zero, List.getD_cons_succ, hab]
    rfl
  | false =>
    have heq := hEq a b hab hba
    subst heq
    simp only [sortTwo, List.getD_cons_zero, List.getD_cons_succ, hab]
    rfl

theorem qsortSegF_sorted_eq {P : α → α → Bool} (hswo : IsSWO P)
    (hEq : ∀ a b, P a b = false → P b a = false → a = b) :
    ∀ fuel seg, seg.length ≤ fuel → AdjOK P seg →
    qsortSegF P fuel seg = seg := by
  intro fuel
  induction fuel with
  | zero => intro seg h hadj; rfl
  | succ f ih =>
    intro seg h hadj
    simp only [qsortSegF]
    by_cases hs1 : seg.length ≤ 1
    · rw [if_pos hs1]
    · rw [if_neg hs1]
      by_cases hs2 : seg.length = 2
      · rw [if_pos hs2]
        exact sortTwo_sorted_eq hEq seg hs2 hadj
      · rw [if_neg hs2]
        have hlen3 : 3 ≤ seg.length := by omega
        rw [partitionAt_sorted_noop hswo seg hlen3 hadj]
        show qsortSegF P f (seg.take 0) ++
          seg.getD 0 default :: qsortSegF P f (seg.drop (0 + 1)) = seg
        rw [List.take_zero, qsortSegF_nil, List.nil_append, Nat.zero_add,
          List.drop_one]
        rw [ih seg.tail (by simp only [List.length_tail]; omega)
          (adjOK_tail hadj)]
        exact cons_getD_tail seg (by omega)

theorem qsortSeg_sorted_eq {P : α → α → Bool} (hswo : IsSWO P)
    (hEq : ∀ a b, P a b = false → P b a = false → a = b) (seg : List α)
    (hadj : AdjOK P seg) : qsortSeg P seg = seg :=
  qsortSegF_sorted_eq hswo hEq seg.length seg (Nat.le_refl _) hadj

/-! ### Helpers for the loop refinement -/

theorem sortTwo_length (P : α → α → Bool) (seg : List α) :
    (sortTwo P seg).length = seg.length := by
  simp only [sortTwo]
  split
  · rw [length_listSwap]
  · rfl

theorem partFn_length (P : α → α → Bool) : ∀ seg : List α,
    (partFn P seg).length = seg.length := by
  intro seg
  simp only [partFn]
  split
  · exact partitionAt_length P seg (by omega)
  · rfl

theorem partFn_eq (P : α → α → Bool) (seg : List α) (h : 1 ≤ seg.length) :
    partFn P seg = (partitionAt P seg).1 := by
  simp only [partFn]
  rw [if_pos h]

theorem qsortSeg_lenfun (P : α → α → Bool) : ∀ seg : List α,
    (qsortSeg P seg).length = seg.length :=
  fun seg => qsortSeg_length P seg

theorem qsortSeg_short (P : α → α → Bool) (seg : List α)
    (h : seg.length ≤ 1) : qsortSeg P seg = seg := by
  unfold qsortSeg
  cases hl : seg.length with
  | zero =>
    have : seg = [] := List.length_eq_zero.mp hl
    subst this
    rfl
  | succ m =>
    have hm : m = 0 := by omega
    subst hm
    simp only [qsortSegF]
    rw [if_pos (by omega)]

theorem qsortSeg_two (P : α → α → Bool) (seg : List α)
    (h : seg.length = 2) : qsortSeg P seg = sortTwo P seg := by
  unfold qsortSeg
  rw [h]
  simp only [qsortSegF]
  rw [if_neg (by omega), if_pos h]

theorem qsortSeg_split (P : α → α → Bool) (S : List α) (h3 : 3 ≤ S.length) :
    qsortSeg P S
      = qsortSeg P ((partitionAt P S).1.take (partitionAt P S).2)
        ++ (partitionAt P S).1.getD (partitionAt P S).2 default
        :: qsortSeg P ((partitionAt P S).1.drop ((partitionAt P S).2 + 1)) := by
  have hpl : (partitionAt P S).1.length = S.length :=
    partitionAt_length P S (by omega)
  have hple : (partitionAt P S).2 ≤ S.length - 1 :=
    partitionAt_left_le P S (by omega)
  obtain ⟨m, hm⟩ : ∃ m, S.length = m + 1 := ⟨S.length - 1, by omega⟩
  show qsortSegF P S.length S = _
  rw [hm]
  simp only [qsortSegF]
  rw [if_neg (by omega), if_neg (by omega)]
  unfold qsortSeg
  rw [qsortSegF_fuel_invariant P m _ _
      (by simp only [List.length_take]; omega) (Nat.le_refl _),
    qsortSegF_fuel_invariant P m _ _
      (by simp only [List.length_drop]; omega) (Nat.le_refl _)]

theorem measureStack_cons (v : Nat × Nat) (s : List (Nat × Nat)) :
    measureStack (v :: s) = 3 ^ v.2 + measureStack s := by
  simp [measureStack]

theorem measureStack_append (s t : List (Nat × Nat)) :
    measureStack (s ++ t) = measureStack s + measureStack t := by
  simp [measureStack]

theorem pow3_add_le (a b : Nat) : 3 ^ a + 3 ^ b ≤ 3 ^ (a + b) + 1 := by
  cases a with
  | zero => rw [Nat.pow_zero, Nat.zero_add]; omega
  | succ a1 =>
    cases b with
    | zero => rw [Nat.pow_zero, Nat.add_zero]
    | succ b1 =>
      have h1 : (3:Nat) ^ (a1 + 1) ≥ 3 := by
        calc (3:Nat) ≤ 3 ^ 1 := by omega
        _ ≤ 3 ^ (a1 + 1) := Nat.pow_le_pow_right (by omega) (by omega)
      have h2 : (3:Nat) ^ (b1 + 1) ≥ 3 := by
        calc (3:Nat) ≤ 3 ^ 1 := by omega
        _ ≤ 3 ^ (b1 + 1) := Nat.pow_le_pow_right (by omega) (by omega)
      have hmul : 3 ^ (a1 + 1) + 3 ^ (b1 + 1) ≤ 3 ^ (a1 + 1) * 3 ^ (b1 + 1) := by
        nlinarith
      calc 3 ^ (a1 + 1) + 3 ^ (b1 + 1) ≤ 3 ^ (a1 + 1) * 3 ^ (b1 + 1) := hmul
        _ = 3 ^ (a1 + 1 + (b1 + 1)) := (Nat.pow_add 3 (a1 + 1) (b1 + 1)).symm
        _ ≤ 3 ^ (a1 + 1 + (b1 + 1)) + 1 := by omega

theorem vDisj_symm {v w : Nat × Nat} (h : vDisj v w) : vDisj w v := by
  rcases h with h | h
  · exact Or.inr h
  · exact Or.inl h

theorem vDisj_of_sub {off len a m : Nat} {w : Nat × Nat}
    (hsub : a + m ≤ len) (hd : vDisj (off, len) w) :
    vDisj (off + a, m) w := by
  rcases hd with h | h
  · exact Or.inl (by simp only [vDisj] at h ⊢; omega)
  · exact Or.inr (by simp only [vDisj] at h ⊢; omega)

theorem applyViews_nil (P : α → α → Bool) (arr : List α) :
    applyViews P arr [] = arr := rfl

theorem applyViews_cons (P : α → α → Bool) (arr : List α) (v : Nat × Nat)
    (s : List (Nat × Nat)) :
    applyViews P arr (v :: s) = applySeg (qsortSeg P) v (applyViews P arr s) :=
  rfl

theorem length_applyViews (P : α → α → Bool) (arr : List α) :
    ∀ s : List (Nat × Nat), (∀ v ∈ s, vInb arr.length v) →
    (applyViews P arr s).length = arr.length := by
  intro s
  induction s with
  | nil => intro h; rfl
  | cons v t ih =>
    intro h
    have htl : (applyViews P arr t).length = arr.length :=
      ih (fun w hw => h w (List.mem_cons_of_mem v hw))
    have hv : vInb arr.length v := h v (List.mem_cons_self _ _)
    rw [applyViews_cons]
    obtain ⟨off, len⟩ := v
    rw [length_applySeg (qsortSeg P) _ (by rw [htl]; exact hv), htl]
    rw [qsortSeg_lenfun]
    exact length_segOf _ (by rw [htl]; exact hv)

theorem applyViews_applySeg_comm (P : α → α → Bool) (f : List α → List α)
    (hf : ∀ s, (f s).length = s.length) (arr : List α) :
    ∀ (s : List (Nat × Nat)) (v : Nat × Nat), vInb arr.length v →
    (∀ w ∈ s, vInb arr.length w) → (∀ w ∈ s, vDisj v w) →
    applyViews P (applySeg f v arr) s = applySeg f v (applyViews P arr s) := by
  intro s
  induction s with
  | nil => intro v hv hs hd; rfl
  | cons w t ih =>
    intro v hv hs hd
    rw [applyViews_cons, applyViews_cons]
    rw [ih v hv (fun u hu => hs u (List.mem_cons_of_mem w hu))
      (fun u hu => hd u (List.mem_cons_of_mem w hu))]
    have hlen : (applyViews P arr t).length = arr.length :=
      length_applyViews P arr t (fun u hu => hs u (List.mem_cons_of_mem w hu))
    exact applySeg_comm (qsortSeg P) f (applyViews P arr t)
      (vDisj_symm (hd w (List.mem_cons_self _ _)))
      (by rw [vInb, hlen]; exact hs w (List.mem_cons_self _ _))
      (by rw [vInb, hlen]; exact hv)
      (qsortSeg_lenfun P) hf

theorem applySeg_congr (f g : List α → List α) (v : Nat × Nat)
    (arr : List α) (h : f (segOf arr v) = g (segOf arr v)) :
    applySeg f v arr = applySeg g v arr := by
  simp only [applySeg, h]

theorem applyViews_append (P : α → α → Bool) (arr : List α)
    (s1 s2 : List (Nat × Nat)) :
    applyViews P arr (s1 ++ s2) = applyViews P (applyViews P arr s2) s1 := by
  simp only [applyViews, List.foldr_append]

theorem getElem?_writeSegAt_lt (X : List α) (b : Nat) (s : List α) (j : Nat)
    (hj : j < b) (hb : b ≤ X.length) : (writeSegAt X b s)[j]? = X[j]? := by
  simp only [writeSegAt]
  rw [List.getElem?_append_left
      (by simp only [List.length_append, List.length_take]; omega),
    List.getElem?_append_left (by simp only [List.length_take]; omega),
    List.getElem?_take_of_lt hj]

theorem getElem?_writeSegAt_ge (X : List α) (b : Nat) (s : List α) (j : Nat)
    (hj : b + s.length ≤ j) (hb : b ≤ X.length) :
    (writeSegAt X b s)[j]? = X[j]? := by
  simp only [writeSegAt]
  rw [List.getElem?_append_right
      (by simp only [List.length_append, List.length_take]; omega),
    List.getElem?_drop]
  congr 1
  simp only [List.length_append, List.length_take]
  omega

theorem segOf_applySeg_disj (g : List α → List α) (v w : Nat × Nat)
    (X : List α) (hd : vDisj v w) (hw : vInb X.length w)
    (hgw : (g (segOf X w)).length = w.2) :
    segOf (applySeg g w X) v = segOf X v := by
  obtain ⟨off, len⟩ := v
  obtain ⟨b, lb⟩ := w
  have hlen : (applySeg g (b, lb) X).length = X.length :=
    length_applySeg g X hw (by rw [hgw])
  apply List.ext_getElem?
  intro i
  simp only [segOf]
  by_cases hi : i < len
  · rw [List.getElem?_take_of_lt hi, List.getElem?_take_of_lt hi,
      List.getElem?_drop, List.getElem?_drop]
    show (writeSegAt X b (g (segOf X (b, lb))))[off + i]? = X[off + i]?
    rcases hd with h | h
    · -- v before w
      simp only [vDisj] at h
      exact getElem?_writeSegAt_lt X b _ (off + i) (by omega) (by
        simp only [vInb] at hw; omega)
    · -- w before v
      simp only [vDisj] at h
      exact getElem?_writeSegAt_ge X b _ (off + i) (by rw [hgw]; omega) (by
        simp only [vInb] at hw; omega)
  · rw [List.getElem?_take_eq_none (by omega),
      List.getElem?_take_eq_none (by omega)]

theorem segOf_applyViews_disj (P : α → α → Bool) (arr : List α)
    (v : Nat × Nat) :
    ∀ t : List (Nat × Nat), (∀ w ∈ t, vInb arr.length w) →
    (∀ w ∈ t, vDisj v w) →
    segOf (applyViews P arr t) v = segOf arr v := by
  intro t
  induction t with
  | nil => intro h1 h2; rfl
  | cons w u ih =>
    intro h1 h2
    rw [applyViews_cons]
    have hlen : (applyViews P arr u).length = arr.length :=
      length_applyViews P arr u (fun x hx => h1 x (List.mem_cons_of_mem w hx))
    rw [segOf_applySeg_disj (qsortSeg P) v w _
      (h2 w (List.mem_cons_self _ _))
      (by rw [vInb, hlen]; exact h1 w (List.mem_cons_self _ _))
      (by rw [qsortSeg_lenfun]
          exact length_segOf _ (by rw [hlen]; exact h1 w (List.mem_cons_self _ _)))]
    exact ih (fun x hx => h1 x (List.mem_cons_of_mem w hx))
      (fun x hx => h2 x (List.mem_cons_of_mem w hx))

/-- Sorting the two sub-windows produced by a partition step, inside the
partitioned segment, yields exactly the recursive quicksort of the segment. -/
theorem qsortSeg_nested_id (P : α → α → Bool) (seg : List α)
    (h3 : 3 ≤ seg.length) :
    applySeg (qsortSeg P) ((partitionAt P seg).2 + 1,
        seg.length - 1 - (partitionAt P seg).2)
      (applySeg (qsortSeg P) (0, (partitionAt P seg).2) (partFn P seg))
      = qsortSeg P seg := by
  have hdl : (partitionAt P seg).1.length = seg.length :=
    partitionAt_length P seg (by omega)
  have hll : (partitionAt P seg).2 ≤ seg.length - 1 :=
    partitionAt_left_le P seg (by omega)
  set d := (partitionAt P seg).1 with hd
  set l := (partitionAt P seg).2 with hl
  rw [partFn_eq P seg (by omega)]
  rw [← hd]
  have hld : l < d.length := by omega
  have htake : (d.take l).length = l := by
    simp only [List.length_take]; omega
  -- step 1: sort the left window
  have e1 := applySeg_zero (qsortSeg P) (d.take l)
    (d.getD l default :: d.drop (l + 1)) (qsortSeg_lenfun P _)
  rw [take_getD_drop d hld, htake] at e1
  rw [e1]
  -- step 2: sort the right window
  have hqtl : (qsortSeg P (d.take l)).length = l := by
    rw [qsortSeg_lenfun, htake]
  have e2 := applySeg_nf (qsortSeg P)
    (qsortSeg P (d.take l) ++ [d.getD l default]) (d.drop (l + 1)) []
    (qsortSeg_lenfun P _)
  have hAlen2 : (qsortSeg P (d.take l) ++ [d.getD l default]).length = l + 1 := by
    simp only [List.length_append, List.length_cons, List.length_nil, hqtl]
  have hSlen2 : (d.drop (l + 1)).length = seg.length - 1 - l := by
    simp only [List.length_drop]; omega
  rw [hAlen2, hSlen2, List.append_nil, List.append_assoc,
    List.singleton_append, List.append_nil] at e2
  rw [e2]
  rw [List.append_assoc, List.singleton_append]
  exact (qsortSeg_split P seg h3).symm

/-- Refinement: the iterative work-stack loop computes, on each pending
view, exactly the recursive segment quicksort. -/
theorem uqsLoop_fst (P : α → α → Bool) :
    ∀ (fuel : Nat) (arr : List α) (s : List (Nat × Nat)),
    stackOK arr.length s → measureStack s < fuel →
    (uqsLoop P fuel arr s).1 = applyViews P arr s := by
  intro fuel
  induction fuel with
  | zero => intro arr s hok hm; omega
  | succ f ih =>
    intro arr s hok hm
    cases s with
    | nil => rfl
    | cons v t =>
      obtain ⟨off, len⟩ := v
      obtain ⟨hin, hpw⟩ := hok
      have hvin : vInb arr.length (off, len) := hin _ (List.mem_cons_self _ _)
      have hvin2 : off + len ≤ arr.length := hvin
      have htin : ∀ w ∈ t, vInb arr.length w :=
        fun w hw => hin w (List.mem_cons_of_mem _ hw)
      have hdisj : ∀ w ∈ t, vDisj (off, len) w :=
        fun w hw => (List.pairwise_cons.mp hpw).1 w hw
      have hpw2 : t.Pairwise vDisj := (List.pairwise_cons.mp hpw).2
      have hmt : measureStack ((off, len) :: t) = 3 ^ len + measureStack t :=
        measureStack_cons _ t
      have h3pos : 1 ≤ 3 ^ len := Nat.one_le_pow _ _ (by omega)
      have hmt2 : measureStack t < f := by omega
      have hYlen : (applyViews P arr t).length = arr.length :=
        length_applyViews P arr t htin
      simp only [uqsLoop]
      by_cases hl1 : len ≤ 1
      · rw [if_pos hl1]
        rw [ih arr t ⟨htin, hpw2⟩ hmt2, applyViews_cons]
        have hseglen : (segOf (applyViews P arr t) (off, len)).length = len :=
          length_segOf _ (by rw [hYlen]; exact hvin2)
        have hid : applySeg (qsortSeg P) (off, len) (applyViews P arr t)
            = applyViews P arr t := by
          simp only [applySeg]
          rw [qsortSeg_short P _ (by rw [hseglen]; omega)]
          exact writeSegAt_segOf_self _ (by rw [hYlen]; exact hvin2)
        rw [hid]
      · rw [if_neg hl1]
        by_cases hl2 : len = 2
        · rw [if_pos hl2]
          show (uqsLoop P f (applySeg (sortTwo P) (off, len) arr) t).1 = _
          have harr2len : (applySeg (sortTwo P) (off, len) arr).length
              = arr.length :=
            length_applySeg _ arr hvin2
              (by rw [sortTwo_length]; exact length_segOf arr hvin2)
          rw [ih _ t (by rw [harr2len]; exact ⟨htin, hpw2⟩) hmt2]
          rw [applyViews_applySeg_comm P (sortTwo P) (sortTwo_length P) arr t
            (off, len) hvin htin hdisj]
          rw [applyViews_cons]
          apply applySeg_congr
          have hseglen : (segOf (applyViews P arr t) (off, len)).length = len :=
            length_segOf _ (by rw [hYlen]; exact hvin2)
          rw [qsortSeg_two P _ (by rw [hseglen]; exact hl2)]
        · rw [if_neg hl2]
          have hlen3 : 3 ≤ len := by omega
          have hsegl : (segOf arr (off, len)).length = len :=
            length_segOf arr hvin2
          have hple : (partitionAt P (segOf arr (off, len))).2 ≤ len - 1 := by
            have h0 := partitionAt_left_le P (segOf arr (off, len)) (by omega)
            omega
          set l := (partitionAt P (segOf arr (off, len))).2 with hldef
          have harr1 : writeSegAt arr off (partitionAt P (segOf arr (off, len))).1
              = applySeg (partFn P) (off, len) arr := by
            simp only [applySeg]
            rw [partFn_eq P _ (by omega)]
          rw [harr1]
          have harr1len : (applySeg (partFn P) (off, len) arr).length
              = arr.length :=
            length_applySeg _ arr hvin2 (by rw [partFn_length, hsegl])
          have hvLin : vInb arr.length (off, l) := by
            simp only [vInb]; omega
          have hvRin : vInb arr.length (off + l + 1, len - 1 - l) := by
            simp only [vInb] at hvin2 ⊢
            omega
          have hvLR : vDisj (off, l) (off + l + 1, len - 1 - l) :=
            Or.inl (by omega)
          have hsubL : ∀ w ∈ t, vDisj (off, l) w := by
            intro w hw
            have h5 := vDisj_of_sub (show 0 + l ≤ len by omega) (hdisj w hw)
            simp only [vDisj] at h5 ⊢
            omega
          have hsubR : ∀ w ∈ t, vDisj (off + l + 1, len - 1 - l) w := by
            intro w hw
            have h5 := vDisj_of_sub (show (l + 1) + (len - 1 - l) ≤ len by omega)
              (hdisj w hw)
            simp only [vDisj] at h5 ⊢
            omega
          have hnotle : ¬ len ≤ l := by omega
          have hmemP : ∀ w ∈ pushedViews off len l,
              w = (off, l) ∨ w = (off + l + 1, len - 1 - l) := by
            intro w hw
            simp only [pushedViews, if_neg hnotle] at hw
            split at hw <;>
              simp only [List.mem_cons, List.not_mem_nil, or_false] at hw <;>
              tauto
          have hpok : stackOK (applySeg (partFn P) (off, len) arr).length
              (pushedViews off len l ++ t) := by
            rw [harr1len]
            constructor
            · intro w hw
              rw [List.mem_append] at hw
              rcases hw with hw | hw
              · rcases hmemP w hw with h6 | h6
                · rw [h6]; exact hvLin
                · rw [h6]; exact hvRin
              · exact htin w hw
            · rw [List.pairwise_append]
              refine ⟨?_, hpw2, ?_⟩
              · simp only [pushedViews, if_neg hnotle]
                split
                · exact List.pairwise_cons.mpr ⟨fun b hb => by
                    rw [List.mem_singleton] at hb
                    rw [hb]
                    exact vDisj_symm hvLR, List.pairwise_singleton _ _⟩
                · exact List.pairwise_cons.mpr ⟨fun b hb => by
                    rw [List.mem_singleton] at hb
                    rw [hb]
                    exact hvLR, List.pairwise_singleton _ _⟩
              · intro a ha b hb
                rcases hmemP a ha with h6 | h6
                · rw [h6]; exact hsubL b hb
                · rw [h6]; exact hsubR b hb
          have hmp : measureStack (pushedViews off len l)
              = 3 ^ l + 3 ^ (len - 1 - l) := by
            simp only [pushedViews, if_neg hnotle]
            split
            · simp only [measureStack, List.map_cons, List.map_nil,
                List.sum_cons, List.sum_nil]
              omega
            · simp only [measureStack, List.map_cons, List.map_nil,
                List.sum_cons, List.sum_nil]
              omega
          have hmeas : measureStack (pushedViews off len l ++ t) < f := by
            rw [measureStack_append, hmp]
            have h6 := pow3_add_le l (len - 1 - l)
            have h7 : l + (len - 1 - l) = len - 1 := by omega
            rw [h7] at h6
            have h8 : (3:Nat) ^ len = 3 ^ (len - 1) * 3 := by
              rw [← Nat.pow_succ]
              congr 1
              omega
            have h9 : 1 ≤ (3:Nat) ^ (len - 1) := Nat.one_le_pow _ _ (by omega)
            omega
          rw [ih _ _ hpok hmeas]
          rw [applyViews_append]
          rw [applyViews_applySeg_comm P (partFn P) (partFn_length P) arr t
            (off, len) hvin htin hdisj]
          rw [applyViews_cons]
          set Y := applyViews P arr t with hYdef
          have hYlen2 : Y.length = arr.length := hYlen
          have hsegY : segOf Y (off, len) = segOf arr (off, len) :=
            segOf_applyViews_disj P arr (off, len) t htin hdisj
          set Z := applySeg (partFn P) (off, len) Y with hZdef
          have hZlen : Z.length = arr.length := by
            rw [hZdef]
            rw [length_applySeg _ Y (by rw [hYlen2]; exact hvin2)
              (by rw [partFn_length, hsegY, hsegl]), hYlen2]
          -- the canonical nested form
          have hn1 : applySeg (qsortSeg P) (off + 0, l) Z
              = applySeg (fun seg => applySeg (qsortSeg P) (0, l) (partFn P seg))
                (off, len) Y := by
            rw [hZdef]
            exact applySeg_nest (qsortSeg P) (partFn P) Y
              (by rw [hYlen2]; exact hvin2) (by omega)
              (partFn_length P _) (qsortSeg_lenfun P)
          rw [Nat.add_zero] at hn1
          have hG1len : ((fun seg => applySeg (qsortSeg P) (0, l) (partFn P seg))
              (segOf Y (off, len))).length = (segOf Y (off, len)).length := by
            show (applySeg (qsortSeg P) (0, l)
              (partFn P (segOf Y (off, len)))).length = _
            rw [length_applySeg _ _
                (by rw [partFn_length, hsegY, hsegl]; omega)
                (by rw [qsortSeg_lenfun]
                    exact length_segOf _
                      (by rw [partFn_length, hsegY, hsegl]; omega)),
              partFn_length]
          have hn2 : applySeg (qsortSeg P) (off + (l + 1), len - 1 - l)
              (applySeg (fun seg => applySeg (qsortSeg P) (0, l) (partFn P seg))
                (off, len) Y)
              = applySeg (fun seg => applySeg (qsortSeg P) (l + 1, len - 1 - l)
                  (applySeg (qsortSeg P) (0, l) (partFn P seg))) (off, len) Y :=
            applySeg_nest _ _ Y (by rw [hYlen2]; exact hvin2) (by omega)
              hG1len (qsortSeg_lenfun P)
          have hcanon : applySeg (qsortSeg P) (off + l + 1, len - 1 - l)
              (applySeg (qsortSeg P) (off, l) Z)
              = applySeg (qsortSeg P) (off, len) Y := by
            rw [hn1, show off + l + 1 = off + (l + 1) by omega, hn2]
            apply applySeg_congr
            show applySeg (qsortSeg P) (l + 1, len - 1 - l)
              (applySeg (qsortSeg P) (0, l) (partFn P (segOf Y (off, len))))
              = qsortSeg P (segOf Y (off, len))
            rw [hsegY]
            have hkey := qsortSeg_nested_id P (segOf arr (off, len))
              (by rw [hsegl]; omega)
            rw [hsegl] at hkey
            rw [← hldef] at hkey
            exact hkey
          simp only [pushedViews, if_neg hnotle]
          split
          · show applySeg (qsortSeg P) (off + l + 1, len - 1 - l)
              (applySeg (qsortSeg P) (off, l) Z) = _
            exact hcanon
          · show applySeg (qsortSeg P) (off, l)
              (applySeg (qsortSeg P) (off + l + 1, len - 1 - l) Z) = _
            rw [applySeg_comm (qsortSeg P) (qsortSeg P) Z hvLR
              (by rw [hZlen]; exact hvLin) (by rw [hZlen]; exact hvRin)
              (qsortSeg_lenfun P) (qsortSeg_lenfun P)]
            exact hcanon

/-! ### Equivalence of the capacity-bounded loop with the instrumented loop -/

theorem pushMany_spec {β : Type} (cap : Nat) :
    ∀ (xs s : List β), s.length ≤ cap →
    pushMany cap s xs = if s.length + xs.length ≤ cap
      then some (xs.reverse ++ s) else none := by
  intro xs
  induction xs with
  | nil =>
    intro s hs
    rw [if_pos (by simp only [List.length_nil]; omega)]
    rfl
  | cons x rest ih =>
    intro s hs
    simp only [pushMany, expect_push]
    by_cases hlt : s.length < cap
    · rw [if_pos hlt]
      show pushMany cap (x :: s) rest = _
      rw [ih (x :: s) (by simp only [List.length_cons]; omega)]
      by_cases hc : s.length + (x :: rest).length ≤ cap
      · rw [if_pos (by simp only [List.length_cons] at hc ⊢; omega), if_pos hc]
        rw [List.reverse_cons, List.append_assoc, List.singleton_append]
      · rw [if_neg (by simp only [List.length_cons] at hc ⊢; omega), if_neg hc]
    · rw [if_neg hlt, if_neg (by simp only [List.length_cons]; omega)]

theorem pushedViews_ne_nil (off len l : Nat) : pushedViews off len l ≠ [] := by
  simp only [pushedViews]
  split
  · exact List.cons_ne_nil _ _
  · split
    · exact List.cons_ne_nil _ _
    · exact List.cons_ne_nil _ _

theorem uqsLoop_snd_ge (P : α → α → Bool) (f : Nat) (arr : List α)
    (w : Nat × Nat) (u : List (Nat × Nat)) (hf : 1 ≤ f) :
    u.length + 1 ≤ (uqsLoop P f arr (w :: u)).2 := by
  cases f with
  | zero => omega
  | succ g =>
    simp only [uqsLoop]
    exact Nat.le_max_left _ _

theorem partitionAt_short (P : α → α → Bool) (seg : List α)
    (h : seg.length ≤ 1) : (partitionAt P seg).2 = 0 := by
  cases seg with
  | nil => rfl
  | cons a t =>
    have ht : t = [] := by
      cases t with
      | nil => rfl
      | cons b u => simp at h
    subst ht
    rfl

theorem partitionAt_left_le_gen (P : α → α → Bool) (seg : List α)
    (len : Nat) (hle : seg.length ≤ len) (h3 : 3 ≤ len) :
    (partitionAt P seg).2 ≤ len - 1 := by
  by_cases hs : seg.length ≤ 1
  · rw [partitionAt_short P seg hs]; omega
  · have h0 := partitionAt_left_le P seg (by omega)
    omega

theorem measure_pushed_lt (off len l : Nat) (h3 : 3 ≤ len)
    (hl : l ≤ len - 1) :
    measureStack (pushedViews off len l) < 3 ^ len := by
  simp only [pushedViews, if_neg (show ¬ len ≤ l by omega)]
  have h6 := pow3_add_le l (len - 1 - l)
  have h7 : l + (len - 1 - l) = len - 1 := by omega
  rw [h7] at h6
  have h8 : (3:Nat) ^ len = 3 ^ (len - 1) * 3 := by
    rw [← Nat.pow_succ]
    congr 1
    omega
  have h9 : 1 ≤ (3:Nat) ^ (len - 1) := Nat.one_le_pow _ _ (by omega)
  split
  · simp only [measureStack, List.map_cons, List.map_nil, List.sum_cons,
      List.sum_nil]
    omega
  · simp only [measureStack, List.map_cons, List.map_nil, List.sum_cons,
      List.sum_nil]
    omega

theorem length_segOf_le (arr : List α) (off len : Nat) :
    (segOf arr (off, len)).length ≤ len := by
  simp only [segOf, List.length_take, List.length_drop]
  omega

theorem bqs_eq_uqs (P : α → α → Bool) (cap : Nat) :
    ∀ (fuel : Nat) (arr : List α) (s : List (Nat × Nat)),
    s.length ≤ cap → measureStack s < fuel →
    bqsLoop P cap fuel arr s
      = if (uqsLoop P fuel arr s).2 ≤ cap
        then .ok (uqsLoop P fuel arr s).1 else .error () := by
  intro fuel
  induction fuel with
  | zero => intro arr s hs hm; omega
  | succ f ih =>
    intro arr s hs hm
    cases s with
    | nil =>
      rw [if_pos (by show (0:Nat) ≤ cap; omega)]
      rfl
    | cons v t =>
      obtain ⟨off, len⟩ := v
      have hmt : measureStack ((off, len) :: t) = 3 ^ len + measureStack t :=
        measureStack_cons _ t
      have h3pos : 1 ≤ 3 ^ len := Nat.one_le_pow _ _ (by omega)
      have hmt2 : measureStack t < f := by omega
      have htlen : t.length ≤ cap := by
        simp only [List.length_cons] at hs; omega
      simp only [bqsLoop, uqsLoop]
      by_cases hl1 : len ≤ 1
      · rw [if_pos hl1, if_pos hl1]
        rw [ih arr t htlen hmt2]
        by_cases hd : (uqsLoop P f arr t).2 ≤ cap
        · rw [if_pos hd, if_pos (by
            simp only [List.length_cons] at hs
            simp only [Nat.max_le]
            omega)]
        · rw [if_neg hd, if_neg (by
            intro hmax
            exact hd (le_trans (Nat.le_max_right _ _) hmax))]
      · rw [if_neg hl1, if_neg hl1]
        by_cases hl2 : len = 2
        · rw [if_pos hl2, if_pos hl2]
          rw [ih _ t htlen hmt2]
          by_cases hd : (uqsLoop P f
              (writeSegAt arr off (sortTwo P (segOf arr (off, len)))) t).2
                ≤ cap
          · rw [if_pos hd, if_pos (by
              simp only [List.length_cons] at hs
              simp only [Nat.max_le]
              omega)]
          · rw [if_neg hd, if_neg (by
              intro hmax
              exact hd (le_trans (Nat.le_max_right _ _) hmax))]
        · rw [if_neg hl2, if_neg hl2]
          have hlen3 : 3 ≤ len := by omega
          have hlle : (partitionAt P (segOf arr (off, len))).2 ≤ len - 1 :=
            partitionAt_left_le_gen P _ len (length_segOf_le arr off len) hlen3
          set pv := pushedViews off len
            (partitionAt P (segOf arr (off, len))).2 with hpv
          have hpvne : pv ≠ [] := pushedViews_ne_nil _ _ _
          have hmeaspv : measureStack pv < 3 ^ len :=
            measure_pushed_lt off len _ hlen3 hlle
          have hmeas2 : measureStack (pv ++ t) < f := by
            rw [measureStack_append]
            omega
          have hf1 : 1 ≤ f := by
            have h27 : (27:Nat) ≤ 3 ^ len := by
              calc (27:Nat) = 3 ^ 3 := by norm_num
              _ ≤ 3 ^ len := Nat.pow_le_pow_right (by omega) (by omega)
            omega
          rw [pushMany_spec cap pv.reverse t htlen]
          rw [List.length_reverse, List.reverse_reverse]
          by_cases hfit : t.length + pv.length ≤ cap
          · rw [if_pos hfit]
            show bqsLoop P cap f (writeSegAt arr off
              (partitionAt P (segOf arr (off, len))).1) (pv ++ t) = _
            rw [ih _ (pv ++ t) (by simp only [List.length_append]; omega)
              hmeas2]
            by_cases hd : (uqsLoop P f (writeSegAt arr off
                (partitionAt P (segOf arr (off, len))).1) (pv ++ t)).2 ≤ cap
            · rw [if_pos hd, if_pos (by
                simp only [List.length_cons] at hs
                simp only [Nat.max_le]
                omega)]
            · rw [if_neg hd, if_neg (by
                intro hmax
                exact hd (le_trans (Nat.le_max_right _ _) hmax))]
          · rw [if_neg hfit]
            show Except.error () = _
            have hdrec : t.length + pv.length ≤ (uqsLoop P f (writeSegAt arr off
                (partitionAt P (segOf arr (off, len))).1) (pv ++ t)).2 := by
              cases hq : pv with
              | nil => exact absurd hq hpvne
              | cons a b =>
                have h5 := uqsLoop_snd_ge P f (writeSegAt arr off
                  (partitionAt P (segOf arr (off, len))).1) a (b ++ t) hf1
                simp only [List.cons_append] at h5 ⊢
                simp only [List.length_append, List.length_cons] at h5 ⊢
                omega
            rw [if_neg (by
              intro hmax
              have h6 := le_trans (Nat.le_max_right _ _) hmax
              omega)]

/-! ### Top-level quicksort characterization -/

theorem stackOK_top (arr : List α) : stackOK arr.length [(0, arr.length)] := by
  constructor
  · intro v hv
    rw [List.mem_singleton] at hv
    subst hv
    show 0 + arr.length ≤ arr.length
    omega
  · exact List.pairwise_singleton _ _

theorem measure_top (arr : List α) :
    measureStack [(0, arr.length)] < qsFuel arr.length := by
  show measureStack [(0, arr.length)] < 3 ^ arr.length + 1
  rw [measureStack_cons]
  show 3 ^ arr.length + measureStack [] < 3 ^ arr.length + 1
  simp [measureStack]

theorem qsRun_fst (P : α → α → Bool) (arr : List α) :
    (qsRun P arr).1 = qsortSeg P arr := by
  unfold qsRun
  rw [uqsLoop_fst P _ arr _ (stackOK_top arr) (measure_top arr)]
  rw [applyViews_cons, applyViews_nil]
  have hseg : segOf arr (0, arr.length) = arr := by
    simp [segOf]
  simp only [applySeg, hseg, writeSegAt, List.take_zero, List.nil_append,
    Nat.zero_add, qsortSeg_length, List.drop_length, List.append_nil]

theorem qsDepth_pos (P : α → α → Bool) (arr : List α) : 1 ≤ qsDepth P arr := by
  unfold qsDepth qsRun
  have h5 := uqsLoop_snd_ge P (qsFuel arr.length) arr (0, arr.length) []
    (Nat.succ_le_succ (Nat.zero_le _))
  simpa using h5

theorem const_quicksort_ok_iff (P : α → α → Bool) (cap : Nat)
    (arr r : List α) :
    const_quicksort P cap arr = .ok r
      ↔ (qsDepth P arr ≤ cap ∧ r = qsortSeg P arr) := by
  unfold const_quicksort
  by_cases hc : 0 < cap
  · have hpush : expect_push cap ([] : List (Nat × Nat)) (0, arr.length)
        = some [(0, arr.length)] := by
      simp only [expect_push, List.length_nil]
      rw [if_pos hc]
    rw [hpush]
    show bqsLoop P cap (qsFuel arr.length) arr [(0, arr.length)] = _ ↔ _
    rw [bqs_eq_uqs P cap (qsFuel arr.length) arr [(0, arr.length)]
      (by simp only [List.length_singleton]; omega) (measure_top arr)]
    show (if qsDepth P arr ≤ cap then Except.ok (qsRun P arr).1
      else Except.error ()) = Except.ok r ↔ _
    by_cases hd : qsDepth P arr ≤ cap
    · rw [if_pos hd, qsRun_fst]
      constructor
      · intro h5
        exact ⟨hd, (Except.ok.inj h5).symm⟩
      · intro ⟨h5, h6⟩
        rw [h6]
    · rw [if_neg hd]
      constructor
      · intro h5
        exact absurd h5 (by simp)
      · intro ⟨h5, h6⟩
        exact absurd h5 hd
  · have hpush : expect_push cap ([] : List (Nat × Nat)) (0, arr.length)
        = none := by
      simp only [expect_push, List.length_nil]
      rw [if_neg hc]
    rw [hpush]
    show Except.error () = Except.ok r ↔ _
    constructor
    · intro h5
      exact absurd h5 (by simp)
    · intro ⟨h5, h6⟩
      have := qsDepth_pos P arr
      omega

theorem const_quicksort_error_iff (P : α → α → Bool) (cap : Nat)
    (arr : List α) :
    const_quicksort P cap arr = .error () ↔ cap < qsDepth P arr := by
  constructor
  · intro h5
    by_cases hd : qsDepth P arr ≤ cap
    · exfalso
      have h6 := (const_quicksort_ok_iff P cap arr (qsortSeg P arr)).mpr
        ⟨hd, rfl⟩
      rw [h6] at h5
      exact absurd h5 (by simp)
    · omega
  · intro h5
    cases hq : const_quicksort P cap arr with
    | error e => rfl
    | ok r =>
      have h6 := (const_quicksort_ok_iff P cap arr r).mp hq
      omega

/-! ### The logarithmic depth bound -/

theorem sz_cons_zero (v : Nat × Nat) (s : List (Nat × Nat)) :
    sz (v :: s) 0 = v.2 := rfl

theorem sz_cons_succ (v : Nat × Nat) (s : List (Nat × Nat)) (i : Nat) :
    sz (v :: s) (i + 1) = sz s i := rfl

theorem qInv_pop (N : Nat) (v : Nat × Nat) (t : List (Nat × Nat))
    (h : qInv N (v :: t)) : qInv N t := by
  obtain ⟨h1, h2, h3⟩ := h
  refine ⟨?_, ?_, ?_⟩
  · intro i hi
    have h5 := h1 (i + 1) (by simp only [List.length_cons]; omega)
    rw [sz_cons_succ] at h5
    have hexp : (v :: t).length - 2 - (i + 1) = t.length - 2 - i := by
      simp only [List.length_cons]
      omega
    rw [hexp] at h5
    exact h5
  · intro i hi0 hi
    have h5 := h2 (i + 1) (by omega) (by simp only [List.length_cons]; omega)
    rw [sz_cons_succ] at h5
    exact h5
  · intro hne
    have htpos : 1 ≤ t.length := by
      cases t with
      | nil => exact absurd rfl hne
      | cons a b => simp
    have h5 := h3 (by simp)
    rw [show (v :: t).length - 1 = (t.length - 1) + 1 by
      simp only [List.length_cons]; omega, sz_cons_succ] at h5
    exact h5

theorem qInv_depth (N : Nat) (s : List (Nat × Nat)) (h : qInv N s) :
    s.length ≤ Nat.log2 N + 3 := by
  by_cases hs : s.length ≤ 3
  · omega
  · obtain ⟨h1, h2, h3⟩ := h
    have h5 := h1 1 (by omega)
    have h6 := h2 1 (by omega) (by omega)
    have h7 : 2 ^ (s.length - 3) ≤ N := by
      calc 2 ^ (s.length - 3) = 1 * 2 ^ (s.length - 2 - 1) := by
            rw [Nat.one_mul, show s.length - 2 - 1 = s.length - 3 by omega]
        _ ≤ sz s 1 * 2 ^ (s.length - 2 - 1) :=
            Nat.mul_le_mul_right _ h6
        _ ≤ N := h5
    have hN : N ≠ 0 := by
      have : 1 ≤ 2 ^ (s.length - 3) := Nat.one_le_pow _ _ (by omega)
      omega
    have h8 : s.length - 3 ≤ Nat.log2 N := (Nat.le_log2 hN).mpr h7
    omega

theorem qInv_push (N : Nat) (v : Nat × Nat) (t : List (Nat × Nat))
    (wt wb : Nat × Nat) (hq : qInv N (v :: t))
    (hsum : wt.2 + wb.2 + 1 = v.2) (htop : 2 * wt.2 + 1 ≤ v.2)
    (hbot1 : 1 ≤ wb.2) : qInv N (wt :: wb :: t) := by
  obtain ⟨h1, h2, h3⟩ := hq
  cases t with
  | nil =>
    have hvN : v.2 ≤ N := by
      have h5 := h3 (by simp)
      simpa [sz] using h5
    refine ⟨?_, ?_, ?_⟩
    · intro i hi
      have hi0 : i = 0 := by
        simp only [List.length_cons, List.length_nil] at hi
        omega
      subst hi0
      rw [sz_cons_zero,
        show ((wt :: wb :: []).length - 2 - 0) = 0 by
          simp only [List.length_cons, List.length_nil],
        Nat.pow_zero, Nat.mul_one]
      omega
    · intro i hi0 hi
      simp only [List.length_cons, List.length_nil] at hi
      omega
    · intro hne
      show sz [wt, wb] ([wt, wb].length - 1) ≤ N
      show wb.2 ≤ N
      omega
  | cons u rest =>
    have hvbound : v.2 * 2 ^ rest.length ≤ N := by
      have h5 := h1 0 (by simp)
      rw [sz_cons_zero] at h5
      rw [show (v :: u :: rest).length - 2 - 0 = rest.length by
        simp only [List.length_cons]; omega] at h5
      exact h5
    refine ⟨?_, ?_, ?_⟩
    · intro i hi
      simp only [List.length_cons] at hi
      match i with
      | 0 =>
        rw [sz_cons_zero,
          show (wt :: wb :: u :: rest).length - 2 - 0 = rest.length + 1 by
            simp only [List.length_cons]; omega]
        rw [Nat.pow_succ]
        calc wt.2 * (2 ^ rest.length * 2) = (2 * wt.2) * 2 ^ rest.length := by
              ring
          _ ≤ v.2 * 2 ^ rest.length :=
              Nat.mul_le_mul_right _ (by omega)
          _ ≤ N := hvbound
      | 1 =>
        have hsz : sz (wt :: wb :: u :: rest) 1 = wb.2 := rfl
        rw [hsz,
          show (wt :: wb :: u :: rest).length - 2 - 1 = rest.length by
            simp only [List.length_cons]; omega]
        calc wb.2 * 2 ^ rest.length ≤ v.2 * 2 ^ rest.length :=
              Nat.mul_le_mul_right _ (by omega)
          _ ≤ N := hvbound
      | (j + 2) =>
        have hsz : sz (wt :: wb :: u :: rest) (j + 2) = sz (u :: rest) j := rfl
        rw [hsz]
        have h5 := h1 (j + 1) (by simp only [List.length_cons]; omega)
        rw [sz_cons_succ] at h5
        rw [show (v :: u :: rest).length - 2 - (j + 1)
          = rest.length - (j + 1) by simp only [List.length_cons]; omega] at h5
        rw [show (wt :: wb :: u :: rest).length - 2 - (j + 2)
          = rest.length - (j + 1) by simp only [List.length_cons]; omega]
        exact h5
    · intro i hi0 hi
      simp only [List.length_cons] at hi
      match i, hi0 with
      | 1, _ =>
        have hsz : sz (wt :: wb :: u :: rest) 1 = wb.2 := rfl
        rw [hsz]
        exact hbot1
      | (j + 2), _ =>
        have hsz : sz (wt :: wb :: u :: rest) (j + 2) = sz (u :: rest) j := rfl
        rw [hsz]
        have h5 := h2 (j + 1) (by omega) (by simp only [List.length_cons]; omega)
        rw [sz_cons_succ] at h5
        exact h5
    · intro hne
      have h5 := h3 (by simp)
      rw [show (v :: u :: rest).length - 1 = rest.length + 1 by
        simp only [List.length_cons]; omega, sz_cons_succ] at h5
      have hsz : sz (wt :: wb :: u :: rest) (rest.length + 2)
          = sz (u :: rest) rest.length := rfl
      rw [show (wt :: wb :: u :: rest).length - 1 = rest.length + 2 by
        simp only [List.length_cons]; omega, hsz]
      exact h5

theorem pushedViews_pair (off len l : Nat) (h3 : 3 ≤ len) (hl : l ≤ len - 1) :
    ∃ wt wb : Nat × Nat, pushedViews off len l = [wt, wb] ∧
      wt.2 + wb.2 + 1 = len ∧ 2 * wt.2 + 1 ≤ len ∧ 1 ≤ wb.2 := by
  simp only [pushedViews, if_neg (show ¬ len ≤ l by omega)]
  split
  · rename_i hc
    refine ⟨(off + l + 1, len - 1 - l), (off, l), rfl, ?_, ?_, ?_⟩
    · show len - 1 - l + l + 1 = len
      omega
    · show 2 * (len - 1 - l) + 1 ≤ len
      omega
    · show 1 ≤ l
      omega
  · rename_i hc
    refine ⟨(off, l), (off + l + 1, len - 1 - l), rfl, ?_, ?_, ?_⟩
    · show l + (len - 1 - l) + 1 = len
      omega
    · show 2 * l + 1 ≤ len
      omega
    · show 1 ≤ len - 1 - l
      omega

theorem uqsLoop_depth_le (P : α → α → Bool) (N : Nat) :
    ∀ (fuel : Nat) (arr : List α) (s : List (Nat × Nat)),
    qInv N s → measureStack s < fuel →
    (uqsLoop P fuel arr s).2 ≤ Nat.log2 N + 3 := by
  intro fuel
  induction fuel with
  | zero => intro arr s hq hm; omega
  | succ f ih =>
    intro arr s hq hm
    cases s with
    | nil => show (0:Nat) ≤ _; omega
    | cons v t =>
      obtain ⟨off, len⟩ := v
      have hdep : ((off, len) :: t).length ≤ Nat.log2 N + 3 := qInv_depth N _ hq
      have hmt : measureStack ((off, len) :: t) = 3 ^ len + measureStack t :=
        measureStack_cons _ t
      have h3pos : 1 ≤ 3 ^ len := Nat.one_le_pow _ _ (by omega)
      have hmt2 : measureStack t < f := by omega
      have hpop : qInv N t := qInv_pop N _ t hq
      simp only [List.length_cons] at hdep
      simp only [uqsLoop]
      by_cases hl1 : len ≤ 1
      · rw [if_pos hl1]
        exact max_le (by omega) (ih arr t hpop hmt2)
      · rw [if_neg hl1]
        by_cases hl2 : len = 2
        · rw [if_pos hl2]
          exact max_le (by omega) (ih _ t hpop hmt2)
        · rw [if_neg hl2]
          have hlen3 : 3 ≤ len := by omega
          have hlle : (partitionAt P (segOf arr (off, len))).2 ≤ len - 1 :=
            partitionAt_left_le_gen P _ len (length_segOf_le arr off len) hlen3
          obtain ⟨wt, wb, hpv, hsum, htop, hbot⟩ :=
            pushedViews_pair off len _ hlen3 hlle
          have hmeaspv : measureStack (pushedViews off len
              (partitionAt P (segOf arr (off, len))).2) < 3 ^ len :=
            measure_pushed_lt off len _ hlen3 hlle
          have hmeas2 : measureStack (pushedViews off len
              (partitionAt P (segOf arr (off, len))).2 ++ t) < f := by
            rw [measureStack_append]
            omega
          rw [hpv] at hmeas2 ⊢
          have hq2 : qInv N (wt :: wb :: t) :=
            qInv_push N (off, len) t wt wb hq hsum htop hbot
          have hrec := ih (writeSegAt arr off
            (partitionAt P (segOf arr (off, len))).1) (wt :: wb :: t) hq2
            (by simpa using hmeas2)
          exact max_le (by omega) (by simpa using hrec)

theorem qsDepth_le_log (P : α → α → Bool) (arr : List α) :
    qsDepth P arr ≤ Nat.log2 arr.length + 3 := by
  unfold qsDepth qsRun
  apply uqsLoop_depth_le
  · refine ⟨?_, ?_, ?_⟩
    · intro i hi
      simp only [List.length_singleton] at hi
      omega
    · intro i hi0 hi
      simp only [List.length_singleton] at hi
      omega
    · intro hne
      show sz [(0, arr.length)] 0 ≤ arr.length
      show arr.length ≤ arr.length
      exact Nat.le_refl _
  · exact measure_top arr

/-! ### Shellsort: gap collection and permutation -/

theorem getD_take_lt (l : List α) {n m : Nat} (h : m < n) :
    (l.take n).getD m default = l.getD m default := by
  rw [List.getD_eq_getElem?_getD, List.getElem?_take_of_lt h,
    ← List.getD_eq_getElem?_getD]

theorem getD_set_self (l : List α) {j : Nat} (x : α) (h : j < l.length) :
    (l.set j x).getD j default = x := by
  rw [List.getD_eq_getElem?_getD, List.getElem?_set_self h]
  rfl

theorem getD_set_other (l : List α) {j m : Nat} (x : α) (h : j ≠ m) :
    (l.set j x).getD m default = l.getD m default := by
  rw [List.getD_eq_getElem?_getD, List.getElem?_set_ne h,
    ← List.getD_eq_getElem?_getD]

theorem buildGaps_eq_takeWhile (table : List Nat) (n : Nat) :
    buildGaps table n = table.takeWhile (fun g => g < n) := by
  induction table with
  | nil => rfl
  | cons g gs ih =>
    simp only [buildGaps, List.takeWhile_cons]
    by_cases hg : g < n
    · rw [if_pos hg, if_pos (by simpa using hg), ih]
    · rw [if_neg hg, if_neg (by simpa using hg)]

theorem buildGaps_subset (table : List Nat) (n : Nat) :
    ∀ g ∈ buildGaps table n, g ∈ table := by
  induction table with
  | nil => intro g hg; exact absurd hg (by simp [buildGaps])
  | cons a gs ih =>
    intro g hg
    simp only [buildGaps] at hg
    by_cases ha : a < n
    · rw [if_pos ha] at hg
      rcases List.mem_cons.mp hg with h | h
      · exact List.mem_cons.mpr (Or.inl h)
      · exact List.mem_cons.mpr (Or.inr (ih g h))
    · rw [if_neg ha] at hg
      exact absurd hg (by simp)

theorem shiftLoop_spec_perm (P : α → α → Bool) (temp : α) :
    ∀ (fuel : Nat) (arr : List α) (gap j : Nat), 1 ≤ gap → j < arr.length →
    (shiftLoop P temp fuel arr gap j).2 ≤ j ∧
    (shiftLoop P temp fuel arr gap j).1.length = arr.length ∧
    List.Perm ((shiftLoop P temp fuel arr gap j).1.set
      (shiftLoop P temp fuel arr gap j).2 temp) (arr.set j temp) := by
  intro fuel
  induction fuel with
  | zero =>
    intro arr gap j hgap hj
    exact ⟨Nat.le_refl _, rfl, List.Perm.refl _⟩
  | succ f ih =>
    intro arr gap j hgap hj
    simp only [shiftLoop]
    by_cases hc : gap ≤ j ∧ P temp (arr.getD (j - gap) default) = true
    · rw [if_pos hc]
      have hlt : j - gap < j := by omega
      have hrec := ih (arr.set j (arr.getD (j - gap) default)) gap (j - gap)
        hgap (by rw [List.length_set]; omega)
      refine ⟨by omega, ?_, ?_⟩
      · rw [hrec.2.1, List.length_set]
      · refine hrec.2.2.trans ?_
        exact set_set_hole_perm arr temp hlt hj
    · rw [if_neg hc]
      exact ⟨Nat.le_refl _, rfl, List.Perm.refl _⟩

theorem insertOne_perm (P : α → α → Bool) (arr : List α) (gap i : Nat)
    (hgap : 1 ≤ gap) (hi : i < arr.length) :
    List.Perm (insertOne P arr gap i) arr ∧
    (insertOne P arr gap i).length = arr.length := by
  obtain ⟨hle, hlen, hperm⟩ := shiftLoop_spec_perm P (arr.getD i default)
    (i + 1) arr gap i hgap hi
  constructor
  · show List.Perm ((shiftLoop P (arr.getD i default) (i + 1) arr gap i).1.set
      (shiftLoop P (arr.getD i default) (i + 1) arr gap i).2
      (arr.getD i default)) arr
    refine hperm.trans ?_
    rw [set_getD_self]
  · show ((shiftLoop P (arr.getD i default) (i + 1) arr gap i).1.set
      (shiftLoop P (arr.getD i default) (i + 1) arr gap i).2
      (arr.getD i default)).length = arr.length
    rw [List.length_set, hlen]

theorem iLoop_perm (P : α → α → Bool) (gap : Nat) (hgap : 1 ≤ gap) :
    ∀ (fuel i : Nat) (arr : List α),
    List.Perm (iLoop P gap fuel i arr) arr := by
  intro fuel
  induction fuel with
  | zero => intro i arr; exact List.Perm.refl _
  | succ f ih =>
    intro i arr
    simp only [iLoop]
    by_cases hc : i < arr.length
    · rw [if_pos hc]
      exact (ih (i + 1) _).trans (insertOne_perm P arr gap i hgap hc).1
    · rw [if_neg hc]

theorem onePass_perm (P : α → α → Bool) (arr : List α) (gap : Nat)
    (hgap : 1 ≤ gap) : List.Perm (onePass P arr gap) arr :=
  iLoop_perm P gap hgap arr.length gap arr

theorem gapLoopRev_perm (P : α → α → Bool) :
    ∀ (gs : List Nat) (arr : List α), (∀ g ∈ gs, 1 ≤ g) →
    List.Perm (gapLoopRev P gs arr) arr := by
  intro gs
  induction gs with
  | nil => intro arr h; exact List.Perm.refl _
  | cons g t ih =>
    intro arr h
    simp only [gapLoopRev]
    exact (ih _ (fun x hx => h x (List.mem_cons_of_mem g hx))).trans
      (onePass_perm P arr g (h g (List.mem_cons_self _ _)))

theorem A366726_pos : ∀ g ∈ A366726L, 1 ≤ g := by decide

theorem const_shellsort_perm (P : α → α → Bool) (arr : List α) :
    List.Perm (const_shellsort P arr) arr := by
  unfold const_shellsort const_shellsortWith
  apply gapLoopRev_perm
  intro g hg
  rw [List.mem_reverse] at hg
  exact A366726_pos g (buildGaps_subset A366726L arr.length g hg)

theorem const_shellsort_length (P : α → α → Bool) (arr : List α) :
    (const_shellsort P arr).length = arr.length :=
  (const_shellsort_perm P arr).length_eq

/-! ### Shellsort: sortedness of the final (gap 1) insertion pass -/

theorem shiftLoop1_chain (P : α → α → Bool)
    (hasym : ∀ a b, P a b = true → P b a = false) (temp : α) (i : Nat) :
    ∀ (fuel : Nat) (arr : List α) (j : Nat),
    j ≤ i → i < arr.length → j < fuel →
    AdjOK P (arr.take j) →
    (∀ k, j + 1 ≤ k → k + 1 ≤ i →
      P (arr.getD (k + 1) default) (arr.getD k default) = false) →
    (j < i → P temp (arr.getD (j + 1) default) = true) →
    (1 ≤ j → j < i →
      P (arr.getD (j + 1) default) (arr.getD (j - 1) default) = false) →
    AdjOK P (((shiftLoop P temp fuel arr 1 j).1.set
      (shiftLoop P temp fuel arr 1 j).2 temp).take (i + 1)) ∧
    ((shiftLoop P temp fuel arr 1 j).1.set
      (shiftLoop P temp fuel arr 1 j).2 temp).length = arr.length := by
  intro fuel
  induction fuel with
  | zero => intro arr j _ _ hf; exact absurd hf (by omega)
  | succ f ih =>
    intro arr j hji hi hf ha hb hcnd he
    have haL : ∀ k, k + 1 < j →
        P (arr.getD (k + 1) default) (arr.getD k default) = false := by
      intro k hk
      have h0 := ha k (by rw [List.length_take]; omega)
      rwa [getD_take_lt arr (show k + 1 < j from hk),
        getD_take_lt arr (show k < j by omega)] at h0
    simp only [shiftLoop]
    by_cases hc : 1 ≤ j ∧ P temp (arr.getD (j - 1) default) = true
    · rw [if_pos hc]
      have hjlen : j < arr.length := by omega
      have hres := ih (arr.set j (arr.getD (j - 1) default)) (j - 1)
        (by omega) (by rw [List.length_set]; omega) (by omega) ?_ ?_ ?_ ?_
      case _ => exact ⟨hres.1, by rw [hres.2, List.length_set]⟩
      · intro k hk
        rw [List.length_take, List.length_set] at hk
        rw [getD_take_lt _ (show k + 1 < j - 1 by omega),
          getD_take_lt _ (show k < j - 1 by omega),
          getD_set_other arr _ (show j ≠ k + 1 by omega),
          getD_set_other arr _ (show j ≠ k by omega)]
        exact haL k (by omega)
      · intro k hk1 hk2
        rcases Nat.lt_or_ge k (j + 1) with hkj | hkj
        · have hkeq : k = j := by omega
          subst hkeq
          rw [getD_set_other arr _ (show k ≠ k + 1 by omega),
            getD_set_self arr _ hjlen]
          exact he hc.1 (by omega)
        · rw [getD_set_other arr _ (show j ≠ k + 1 by omega),
            getD_set_other arr _ (show j ≠ k by omega)]
          exact hb k (by omega) hk2
      · intro hlt
        rw [show j - 1 + 1 = j by omega, getD_set_self arr _ hjlen]
        exact hc.2
      · intro h1 h2
        rw [show j - 1 + 1 = j by omega, getD_set_self arr _ hjlen,
          getD_set_other arr _ (show j ≠ j - 1 - 1 by omega)]
        have h0 := haL (j - 1 - 1) (by omega)
        rwa [show j - 1 - 1 + 1 = j - 1 by omega] at h0
    · rw [if_neg hc]
      have hjlen : j < arr.length := by omega
      refine ⟨?_, ?_⟩
      · show AdjOK P ((arr.set j temp).take (i + 1))
        intro k hk
        rw [List.length_take, List.length_set] at hk
        rw [getD_take_lt _ (show k + 1 < i + 1 by omega),
          getD_take_lt _ (show k < i + 1 by omega)]
        rcases Nat.lt_trichotomy (k + 1) j with hkj | hkj | hkj
        · rw [getD_set_other arr _ (show j ≠ k + 1 by omega),
            getD_set_other arr _ (show j ≠ k by omega)]
          exact haL k hkj
        · rw [← hkj, getD_set_self arr _ (by omega),
            getD_set_other arr _ (show k + 1 ≠ k by omega)]
          have hne : ¬ (P temp (arr.getD k default) = true) := by
            intro hP
            exact hc ⟨by omega, by rw [show j - 1 = k by omega]; exact hP⟩
          cases hP : P temp (arr.getD k default)
          · rfl
          · exact absurd hP hne
        · rcases Nat.lt_or_ge j k with hjk | hjk
          · rw [getD_set_other arr _ (show j ≠ k + 1 by omega),
              getD_set_other arr _ (show j ≠ k by omega)]
            exact hb k (by omega) (by omega)
          · have hkeq : k = j := by omega
            subst hkeq
            rw [getD_set_other arr _ (show k ≠ k + 1 by omega),
              getD_set_self arr _ hjlen]
            exact hasym _ _ (hcnd (by omega))
      · show (arr.set j temp).length = arr.length
        exact List.length_set arr j temp

theorem insertOne1_adj (P : α → α → Bool)
    (hasym : ∀ a b, P a b = true → P b a = false)
    (arr : List α) (i : Nat) (hi : i < arr.length) (ha : AdjOK P (arr.take i)) :
    AdjOK P ((insertOne P arr 1 i).take (i + 1)) ∧
    (insertOne P arr 1 i).length = arr.length := by
  have h := shiftLoop1_chain P hasym (arr.getD i default) i (i + 1) arr i
    (Nat.le_refl i) hi (Nat.lt_succ_self i) ha
    (by intro k hk1 hk2; exact absurd hk2 (by omega))
    (by intro h0; exact absurd h0 (Nat.lt_irrefl i))
    (by intro _ h0; exact absurd h0 (Nat.lt_irrefl i))
  exact h

theorem iLoop1_adj (P : α → α → Bool)
    (hasym : ∀ a b, P a b = true → P b a = false) :
    ∀ (fuel i : Nat) (arr : List α), arr.length ≤ fuel + i →
    AdjOK P (arr.take i) → AdjOK P (iLoop P 1 fuel i arr) := by
  intro fuel
  induction fuel with
  | zero =>
    intro i arr hlen ha
    show AdjOK P arr
    rwa [List.take_of_length_le (by omega)] at ha
  | succ f ih =>
    intro i arr hlen ha
    simp only [iLoop]
    by_cases hc : i < arr.length
    · rw [if_pos hc]
      obtain ⟨hadj, hL⟩ := insertOne1_adj P hasym arr i hc ha
      exact ih (i + 1) _ (by rw [hL]; omega) hadj
    · rw [if_neg hc]
      rwa [List.take_of_length_le (by omega)] at ha

theorem onePass1_adj (P : α → α → Bool)
    (hasym : ∀ a b, P a b = true → P b a = false) (arr : List α) :
    AdjOK P (onePass P arr 1) := by
  unfold onePass
  exact iLoop1_adj P hasym arr.length 1 arr (by omega)
    (adjOK_short P _ (by rw [List.length_take]; omega))

theorem gapLoopRev_append (P : α → α → Bool) (xs ys : List Nat) (arr : List α) :
    gapLoopRev P (xs ++ ys) arr = gapLoopRev P ys (gapLoopRev P xs arr) := by
  induction xs generalizing arr with
  | nil => rfl
  | cons g t ih => simp only [List.cons_append, gapLoopRev]; exact ih _

theorem const_shellsort_adjOK (P : α → α → Bool)
    (hasym : ∀ a b, P a b = true → P b a = false) (arr : List α) :
    AdjOK P (const_shellsort P arr) := by
  unfold const_shellsort const_shellsortWith
  by_cases hn : 1 < arr.length
  · have hbg : buildGaps A366726L arr.length
        = 1 :: buildGaps A366726L.tail arr.length := by
      rw [show A366726L = 1 :: A366726L.tail from rfl]
      simp only [buildGaps]
      rw [if_pos hn]
    rw [hbg, List.reverse_cons, gapLoopRev_append]
    exact onePass1_adj P hasym _
  · have hbg : buildGaps A366726L arr.length = [] := by
      rw [show A366726L = 1 :: A366726L.tail from rfl]
      simp only [buildGaps]
      rw [if_neg hn]
    rw [hbg]
    exact adjOK_short P arr (by omega)

/-! ### Shellsort leaves sorted input unchanged -/

theorem insertOne_sorted_id {P : α → α → Bool} (hswo : IsSWO P)
    (arr : List α) (gap i : Nat) (hi : i < arr.length) (hadj : AdjOK P arr) :
    insertOne P arr gap i = arr := by
  have hstop : shiftLoop P (arr.getD i default) (i + 1) arr gap i = (arr, i) := by
    simp only [shiftLoop]
    rw [if_neg ?hcnd]
    case hcnd =>
      rintro ⟨hg, hP⟩
      have hfalse := adjOK_pairwise hswo hadj (i - gap) i (by omega) hi
      rw [hfalse] at hP
      exact absurd hP (by decide)
  show (shiftLoop P (arr.getD i default) (i + 1) arr gap i).1.set
      (shiftLoop P (arr.getD i default) (i + 1) arr gap i).2
      (arr.getD i default) = arr
  rw [hstop]
  exact set_getD_self arr i default

theorem iLoop_sorted_id {P : α → α → Bool} (hswo : IsSWO P) (gap : Nat) :
    ∀ (fuel i : Nat) (arr : List α), AdjOK P arr →
    iLoop P gap fuel i arr = arr := by
  intro fuel
  induction fuel with
  | zero => intro i arr _; rfl
  | succ f ih =>
    intro i arr hadj
    simp only [iLoop]
    by_cases hc : i < arr.length
    · rw [if_pos hc, insertOne_sorted_id hswo arr gap i hc hadj]
      exact ih (i + 1) arr hadj
    · rw [if_neg hc]

theorem onePass_sorted_id {P : α → α → Bool} (hswo : IsSWO P)
    (arr : List α) (gap : Nat) (hadj : AdjOK P arr) :
    onePass P arr gap = arr :=
  iLoop_sorted_id hswo gap arr.length gap arr hadj

theorem gapLoopRev_sorted_id {P : α → α → Bool} (hswo : IsSWO P) :
    ∀ (gs : List Nat) (arr : List α), AdjOK P arr →
    gapLoopRev P gs arr = arr := by
  intro gs
  induction gs with
  | nil => intro arr _; rfl
  | cons g t ih =>
    intro arr hadj
    show gapLoopRev P t (onePass P arr g) = arr
    rw [onePass_sorted_id hswo arr g hadj]
    exact ih arr hadj

theorem const_shellsort_sorted_id {P : α → α → Bool} (hswo : IsSWO P)
    (arr : List α) (hadj : AdjOK P arr) : const_shellsort P arr = arr := by
  unfold const_shellsort const_shellsortWith
  exact gapLoopRev_sorted_id hswo _ arr hadj

/-! ### Quicksort stack depth on sorted and tiny inputs; idempotence -/

theorem tail_take (t : List α) : ∀ n : Nat, (t.take n).tail = t.tail.take (n - 1) := by
  intro n
  cases t with
  | nil => simp
  | cons a u =>
    cases n with
    | zero => rfl
    | succ m => rfl

theorem segOf_tail (arr : List α) (off len : Nat) :
    segOf arr (off + 1, len - 1) = (segOf arr (off, len)).tail := by
  show (arr.drop (off + 1)).take (len - 1) = ((arr.drop off).take len).tail
  rw [tail_take, List.tail_drop]

theorem uqsLoop_nil_snd (P : α → α → Bool) (arr : List α) :
    ∀ f : Nat, (uqsLoop P f arr []).2 = 0 := by
  intro f
  cases f with
  | zero => rfl
  | succ g => rfl

theorem uqsLoop_sorted_depth {P : α → α → Bool} (hswo : IsSWO P) :
    ∀ (fuel : Nat) (arr : List α) (s : List (Nat × Nat)),
    (s = [] ∨
     (∃ v : Nat × Nat, s = [v] ∧ v.1 + v.2 ≤ arr.length ∧
       AdjOK P (segOf arr v)) ∨
     (∃ w v : Nat × Nat, s = [w, v] ∧ w.2 = 0 ∧ v.1 + v.2 ≤ arr.length ∧
       AdjOK P (segOf arr v))) →
    (uqsLoop P fuel arr s).2 ≤ 2 := by
  intro fuel
  induction fuel with
  | zero => intro arr s _; exact Nat.zero_le _
  | succ f ih =>
    intro arr s hs
    rcases hs with rfl | ⟨v, rfl, hinb, hadj⟩ | ⟨w, v, rfl, hw0, hinb, hadj⟩
    · show (0:Nat) ≤ 2; omega
    · obtain ⟨off, len⟩ := v
      have hinb2 : off + len ≤ arr.length := hinb
      simp only [uqsLoop]
      by_cases hl1 : len ≤ 1
      · rw [if_pos hl1]
        exact max_le (by decide) (ih arr [] (Or.inl rfl))
      · rw [if_neg hl1]
        by_cases hl2 : len = 2
        · rw [if_pos hl2]
          exact max_le (by decide) (ih _ [] (Or.inl rfl))
        · rw [if_neg hl2]
          have hlen3 : 3 ≤ len := by omega
          have hseg : (segOf arr (off, len)).length = len :=
            length_segOf arr hinb2
          have hnoop : partitionAt P (segOf arr (off, len))
              = (segOf arr (off, len), 0) :=
            partitionAt_sorted_noop hswo _ (by omega) hadj
          have hn1 : (partitionAt P (segOf arr (off, len))).1
              = segOf arr (off, len) := by rw [hnoop]
          have hn2 : (partitionAt P (segOf arr (off, len))).2 = 0 := by
            rw [hnoop]
          rw [hn1, hn2]
          have hpv : pushedViews off len 0
              = [(off, 0), (off + 0 + 1, len - 1 - 0)] := by
            simp only [pushedViews]
            rw [if_neg (show ¬ len ≤ 0 by omega),
              if_neg (show ¬ len - 1 - 0 ≤ 0 by omega)]
          rw [hpv, writeSegAt_segOf_self arr hinb2, List.append_nil]
          refine max_le (by decide) (ih arr _ (Or.inr (Or.inr
            ⟨(off, 0), (off + 0 + 1, len - 1 - 0), rfl, rfl, by omega, ?_⟩)))
          have hteq : segOf arr (off + 0 + 1, len - 1 - 0)
              = (segOf arr (off, len)).tail := segOf_tail arr off len
          rw [hteq]
          exact adjOK_tail hadj
    · simp only [uqsLoop]
      rw [if_pos (show w.2 ≤ 1 by omega)]
      refine max_le (by simp) (ih arr [v] (Or.inr (Or.inl ⟨v, rfl, hinb, hadj⟩)))

theorem qsDepth_sorted_le {P : α → α → Bool} (hswo : IsSWO P)
    (arr : List α) (hadj : AdjOK P arr) : qsDepth P arr ≤ 2 := by
  unfold qsDepth qsRun
  apply uqsLoop_sorted_depth hswo
  refine Or.inr (Or.inl ⟨(0, arr.length), rfl, by simp, ?_⟩)
  have hseg : segOf arr (0, arr.length) = arr := by simp [segOf]
  rwa [hseg]

theorem uqsLoop_single_small (P : α → α → Bool) (arr : List α)
    (off len f : Nat) (h : len ≤ 2) :
    (uqsLoop P (f + 1) arr [(off, len)]).2 = 1 := by
  simp only [uqsLoop]
  by_cases hl1 : len ≤ 1
  · rw [if_pos hl1, uqsLoop_nil_snd]
    simp
  · rw [if_neg hl1, if_pos (show len = 2 by omega), uqsLoop_nil_snd]
    simp

theorem qsDepth_small (P : α → α → Bool) (arr : List α)
    (h : arr.length ≤ 2) : qsDepth P arr = 1 := by
  unfold qsDepth qsRun
  rw [show qsFuel arr.length = 3 ^ arr.length + 1 from rfl]
  exact uqsLoop_single_small P arr 0 arr.length (3 ^ arr.length) h

theorem qsDepth_ge_two (P : α → α → Bool) (arr : List α)
    (h3 : 3 ≤ arr.length) : 2 ≤ qsDepth P arr := by
  unfold qsDepth qsRun
  rw [show qsFuel arr.length = 3 ^ arr.length + 1 from rfl]
  simp only [uqsLoop]
  rw [if_neg (show ¬ arr.length ≤ 1 by omega),
    if_neg (show ¬ arr.length = 2 by omega)]
  have hlle : (partitionAt P (segOf arr (0, arr.length))).2 ≤ arr.length - 1 :=
    partitionAt_left_le_gen P _ arr.length (length_segOf_le arr 0 arr.length) h3
  obtain ⟨wt, wb, hpv, _, _, _⟩ := pushedViews_pair 0 arr.length _ h3 hlle
  rw [hpv, List.append_nil]
  have hge := uqsLoop_snd_ge P (3 ^ arr.length)
    (writeSegAt arr 0 (partitionAt P (segOf arr (0, arr.length))).1) wt [wb]
    (Nat.one_le_pow _ _ (by omega))
  refine Nat.le_trans ?_ (Nat.le_max_right _ _)
  simpa using hge

theorem const_quicksort_idem {P : α → α → Bool} (hswo : IsSWO P)
    (hEq : ∀ a b, P a b = false → P b a = false → a = b)
    (cap : Nat) (x s : List α)
    (h : const_quicksort P cap x = Except.ok s) :
    const_quicksort P cap s = Except.ok s := by
  obtain ⟨hcap, hs⟩ := (const_quicksort_ok_iff P cap x s).mp h
  have hsort : AdjOK P s := by
    rw [hs]
    exact qsortSeg_adjOK (fun a b hab => hswo.asymm hab) x
  have hlen : s.length = x.length := by
    rw [hs]
    exact qsortSeg_length P x
  have hid : qsortSeg P s = s := qsortSeg_sorted_eq hswo hEq s hsort
  apply (const_quicksort_ok_iff P cap s s).mpr
  refine ⟨?_, hid.symm⟩
  by_cases h3 : 3 ≤ x.length
  · have h1 := qsDepth_sorted_le hswo s hsort
    have h2 := qsDepth_ge_two P x h3
    omega
  · have h1 : qsDepth P s = 1 := qsDepth_small P s (by omega)
    have h2 := qsDepth_pos P x
    omega

/-! ### Concrete order instances and gap-table facts -/

theorem natLt_swo : IsSWO natLt := by
  constructor
  · intro a
    simp only [natLt, decide_eq_false_iff_not]
    omega
  · intro a b c hab hbc
    simp only [natLt, decide_eq_true_eq] at *
    omega
  · intro a b c hac
    simp only [natLt, decide_eq_true_eq] at *
    omega

theorem natLt_total_eq : ∀ a b : Nat, natLt a b = false → natLt b a = false →
    a = b := by
  intro a b hab hba
  simp only [natLt, decide_eq_false_iff_not] at hab hba
  omega

theorem pairFstLt_swo : IsSWO pairFstLt := by
  constructor
  · intro a
    simp only [pairFstLt, decide_eq_false_iff_not]
    omega
  · intro a b c hab hbc
    simp only [pairFstLt, decide_eq_true_eq] at *
    omega
  · intro a b c hac
    simp only [pairFstLt, decide_eq_true_eq] at *
    omega

theorem A366726_chain : List.Chain' (fun a b : Nat => a < b) A366726L := by
  rw [List.chain'_iff_get]
  decide

theorem buildGaps_desc (n : Nat) :
    List.Chain' (fun a b => b < a) ((buildGaps A366726L n).reverse) := by
  have hpre : List.Chain' (fun a b : Nat => a < b) (buildGaps A366726L n) := by
    rw [buildGaps_eq_takeWhile]
    exact A366726_chain.prefix (List.takeWhile_prefix _)
  exact List.chain'_reverse.mpr hpre

theorem buildGaps_last (n : Nat) (hn : 1 < n) :
    ((buildGaps A366726L n).reverse).getLast? = some 1 := by
  rw [List.getLast?_reverse]
  rw [show A366726L = 1 :: A366726L.tail from rfl]
  simp only [buildGaps]
  rw [if_pos hn]
  rfl

theorem shellsort_short_id (P : α → α → Bool) (arr : List α)
    (h : arr.length ≤ 1) : const_shellsort P arr = arr := by
  unfold const_shellsort const_shellsortWith
  have hbg : buildGaps A366726L arr.length = [] := by
    rw [show A366726L = 1 :: A366726L.tail from rfl]
    simp only [buildGaps]
    rw [if_neg (by omega)]
  rw [hbg]
  rfl

/-! ### The claims -/

/-- Claim C1: for every finite sequence and every valid strict-weak-ordering
predicate `less`, after `const_quicksort` (whenever it returns successfully,
which includes every capacity at least its stack depth, in particular the
default 1024 whenever that suffices) or `const_shellsort` (default gap
table), every adjacent pair `(a, b)` of the result has `less(b, a) = false`. -/
theorem claim_C1_sorted {P : α → α → Bool} (hswo : IsSWO P) (arr : List α) :
    (∀ cap r, const_quicksort P cap arr = Except.ok r → AdjOK P r) ∧
    AdjOK P (const_shellsort P arr) := by
  constructor
  · intro cap r h
    obtain ⟨_, hr⟩ := (const_quicksort_ok_iff P cap arr r).mp h
    rw [hr]
    exact qsortSeg_adjOK (fun a b hab => hswo.asymm hab) arr
  · exact const_shellsort_adjOK P (fun a b hab => hswo.asymm hab) arr

/-- Witness for C1 at the strict order on naturals and the input `[3, 1, 2]`. -/
theorem claim_C1_witness :
    (∀ cap r, const_quicksort natLt cap [3, 1, 2] = Except.ok r →
      AdjOK natLt r) ∧
    AdjOK natLt (const_shellsort natLt [3, 1, 2]) :=
  claim_C1_sorted natLt_swo [3, 1, 2]

/-- Claim C2: for every input sequence and every predicate, the result of
`const_quicksort` (on success) and of `const_shellsort` is a permutation of
the input — same multiset of elements, none created, destroyed or
duplicated. -/
theorem claim_C2_perm (P : α → α → Bool) (arr : List α) :
    (∀ cap r, const_quicksort P cap arr = Except.ok r → List.Perm r arr) ∧
    List.Perm (const_shellsort P arr) arr := by
  constructor
  · intro cap r h
    obtain ⟨_, hr⟩ := (const_quicksort_ok_iff P cap arr r).mp h
    rw [hr]
    exact qsortSeg_perm P arr
  · exact const_shellsort_perm P arr

/-- Witness for C2 at the strict order on naturals and the input `[2, 0, 1]`. -/
theorem claim_C2_witness :
    (∀ cap r, const_quicksort natLt cap [2, 0, 1] = Except.ok r →
      List.Perm r [2, 0, 1]) ∧
    List.Perm (const_shellsort natLt [2, 0, 1]) [2, 0, 1] :=
  claim_C2_perm natLt [2, 0, 1]

/-- Claim C3: on any input of length `N` and any predicate (adversarial
orderings included), the quicksort work stack never holds more than
`log2 N + 3` sub-problems simultaneously (`Nat.log2` is the floor log, so
this is within the claimed `⌈log2 N⌉ + constant`); consequently
`const_quicksort` succeeds whenever its capacity is at least that bound. -/
theorem claim_C3_depth (P : α → α → Bool) (arr : List α) :
    qsDepth P arr ≤ Nat.log2 arr.length + 3 ∧
    (∀ cap, Nat.log2 arr.length + 3 ≤ cap →
      const_quicksort P cap arr = Except.ok (qsortSeg P arr)) := by
  refine ⟨qsDepth_le_log P arr, ?_⟩
  intro cap hcap
  refine (const_quicksort_ok_iff P cap arr _).mpr ⟨?_, rfl⟩
  have h := qsDepth_le_log P arr
  omega

/-- Claim C4: `const_quicksort` aborts with the capacity-exhaustion panic
(modelled as `Except.error ()`) exactly when the configured stack capacity
is below the stack depth the run requires — a push onto a full stack is
fatal, never a silent truncation. -/
theorem claim_C4_capacity (P : α → α → Bool) (cap : Nat) (arr : List α) :
    const_quicksort P cap arr = Except.error () ↔ cap < qsDepth P arr :=
  const_quicksort_error_iff P cap arr

/-- Counterexample to C5: on `[3, 1, 2]` under `<`, the partition puts the
pivot 3 at index 2, so the right part is empty (`3 - 1 - 2 = 0`); yet the
loop pushes TWO sub-problems, the empty right view `(3, 0)` and the left
view `(0, 2)`, not one — and consequently capacity 1 (which would suffice
if only one were pushed) makes the run panic. -/
theorem claim_C5_counterexample :
    (partitionAt natLt [3, 1, 2]).2 = 2 ∧
    3 - 1 - (partitionAt natLt [3, 1, 2]).2 = 0 ∧
    pushedViews 0 3 (partitionAt natLt [3, 1, 2]).2 = [(3, 0), (0, 2)] ∧
    (pushedViews 0 3 (partitionAt natLt [3, 1, 2]).2).length ≠ 1 ∧
    const_quicksort natLt 1 [3, 1, 2] = Except.error () :=
  ⟨by decide, by decide, by decide, by decide, by rfl⟩

/-- Claim C5 (amended): after a partition step on a popped sub-problem of
length at least 3, the loop always pushes exactly TWO sub-problems — the
left part `[0, left)` and the right part `(left, len)` (pivot excluded),
larger one first — even when the right part is empty: an empty right view
is pushed and later discarded, and the source's single-push branch is
unreachable. -/
theorem claim_C5_amended (P : α → α → Bool) (arr : List α) (off len : Nat)
    (h3 : 3 ≤ len) :
    (pushedViews off len (partitionAt P (segOf arr (off, len))).2).length
      = 2 ∧
    (pushedViews off len (partitionAt P (segOf arr (off, len))).2
        = [(off, (partitionAt P (segOf arr (off, len))).2),
           (off + (partitionAt P (segOf arr (off, len))).2 + 1,
            len - 1 - (partitionAt P (segOf arr (off, len))).2)] ∨
     pushedViews off len (partitionAt P (segOf arr (off, len))).2
        = [(off + (partitionAt P (segOf arr (off, len))).2 + 1,
            len - 1 - (partitionAt P (segOf arr (off, len))).2),
           (off, (partitionAt P (segOf arr (off, len))).2)]) := by
  have hlle : (partitionAt P (segOf arr (off, len))).2 ≤ len - 1 :=
    partitionAt_left_le_gen P _ len (length_segOf_le arr off len) h3
  simp only [pushedViews]
  rw [if_neg (show ¬ len ≤ (partitionAt P (segOf arr (off, len))).2 by omega)]
  by_cases hc : len - 1 - (partitionAt P (segOf arr (off, len))).2
      ≤ (partitionAt P (segOf arr (off, len))).2
  · rw [if_pos hc]
    exact ⟨rfl, Or.inr rfl⟩
  · rw [if_neg hc]
    exact ⟨rfl, Or.inl rfl⟩

/-- Witness for the amended C5 at `[3, 1, 2]` under `<`. -/
theorem claim_C5_witness :
    (pushedViews 0 3 (partitionAt natLt (segOf [3, 1, 2] (0, 3))).2).length
      = 2 ∧
    (pushedViews 0 3 (partitionAt natLt (segOf [3, 1, 2] (0, 3))).2
        = [(0, (partitionAt natLt (segOf [3, 1, 2] (0, 3))).2),
           (0 + (partitionAt natLt (segOf [3, 1, 2] (0, 3))).2 + 1,
            3 - 1 - (partitionAt natLt (segOf [3, 1, 2] (0, 3))).2)] ∨
     pushedViews 0 3 (partitionAt natLt (segOf [3, 1, 2] (0, 3))).2
        = [(0 + (partitionAt natLt (segOf [3, 1, 2] (0, 3))).2 + 1,
            3 - 1 - (partitionAt natLt (segOf [3, 1, 2] (0, 3))).2),
           (0, (partitionAt natLt (segOf [3, 1, 2] (0, 3))).2)]) :=
  claim_C5_amended natLt [3, 1, 2] 0 3 (by decide)

/-- Claim C6: the partition step on any sub-problem of length at least 3,
for any predicate, places the sub-problem's original first element (the
pivot) at the returned index `left`, with every element before `left`
satisfying `less(x, pivot)` and no element after `left` satisfying it. -/
theorem claim_C6_partition (P : α → α → Bool) (seg : List α)
    (h3 : 3 ≤ seg.length) :
    (partitionAt P seg).2 < seg.length ∧
    (partitionAt P seg).1.getD (partitionAt P seg).2 default
      = seg.getD 0 default ∧
    (∀ k, k < (partitionAt P seg).2 →
      P ((partitionAt P seg).1.getD k default) (seg.getD 0 default)
        = true) ∧
    (∀ k, (partitionAt P seg).2 < k → k < seg.length →
      P ((partitionAt P seg).1.getD k default) (seg.getD 0 default)
        = false) :=
  partitionAt_spec P seg h3

/-- Witness for C6 at `[3, 1, 2]` under `<`. -/
theorem claim_C6_witness :
    (partitionAt natLt [3, 1, 2]).2 < ([3, 1, 2] : List Nat).length ∧
    (partitionAt natLt [3, 1, 2]).1.getD (partitionAt natLt [3, 1, 2]).2
      default = ([3, 1, 2] : List Nat).getD 0 default ∧
    (∀ k, k < (partitionAt natLt [3, 1, 2]).2 →
      natLt ((partitionAt natLt [3, 1, 2]).1.getD k default)
        (([3, 1, 2] : List Nat).getD 0 default) = true) ∧
    (∀ k, (partitionAt natLt [3, 1, 2]).2 < k →
      k < ([3, 1, 2] : List Nat).length →
      natLt ((partitionAt natLt [3, 1, 2]).1.getD k default)
        (([3, 1, 2] : List Nat).getD 0 default) = false) :=
  claim_C6_partition natLt [3, 1, 2] (by decide)

/-- Claim C7: the active gap set is exactly the longest prefix of the
supplied gap table with entries strictly below the sequence length
(`takeWhile`), the passes consume the collected gaps in reverse
(for the default strictly increasing table: strictly descending, ending
with the gap-1 pass), and for sequences of length 0 or 1 no gap qualifies
and the sequence is returned unchanged. -/
theorem claim_C7_gaps (P : α → α → Bool) (arr : List α) (table : List Nat) :
    buildGaps table arr.length
      = table.takeWhile (fun g => g < arr.length) ∧
    const_shellsortWith table P arr
      = gapLoopRev P (buildGaps table arr.length).reverse arr ∧
    List.Chain' (fun a b => b < a)
      ((buildGaps A366726L arr.length).reverse) ∧
    (1 < arr.length →
      ((buildGaps A366726L arr.length).reverse).getLast? = some 1) ∧
    (arr.length ≤ 1 → const_shellsort P arr = arr) :=
  ⟨buildGaps_eq_takeWhile table arr.length, rfl, buildGaps_desc arr.length,
    fun hn => buildGaps_last arr.length hn,
    fun h => shellsort_short_id P arr h⟩

/-- Counterexample to C8: the pairs `(2, 0)` and `(2, 1)` are equivalent
under first-component comparison (neither is less than the other), so per
the claim a two-element sub-problem holding them would be left in place;
the sort swaps them. -/
theorem claim_C8_counterexample :
    pairFstLt (2, 0) (2, 1) = false ∧ pairFstLt (2, 1) (2, 0) = false ∧
    const_quicksort pairFstLt 1024 [((2 : Nat), (0 : Nat)), (2, 1)]
      = Except.ok [(2, 1), (2, 0)] :=
  ⟨by decide, by decide, by rfl⟩

/-- Claim C8 (amended): a popped two-element sub-problem `[a, b]` is swapped
iff `less(a, b)` is false — so a strictly ordered pair is kept, an
out-of-order pair is swapped, and a pair of equivalent elements is ALSO
swapped (the source tests `!cmp(arr[0], arr[1])`, not whether the pair is
out of order). -/
theorem claim_C8_amended (P : α → α → Bool) (cap : Nat) (a b : α)
    (hcap : 1 ≤ cap) :
    const_quicksort P cap [a, b]
      = Except.ok (if P a b = true then [a, b] else [b, a]) := by
  have hd : qsDepth P [a, b] = 1 := qsDepth_small P [a, b] (by simp)
  refine (const_quicksort_ok_iff P cap [a, b] _).mpr ⟨by omega, ?_⟩
  have hsort2 : sortTwo P [a, b] = if !(P a b) then [b, a] else [a, b] := by
    simp only [sortTwo, List.getD_cons_zero, List.getD_cons_succ]
    rw [show listSwap [a, b] 0 1 = [b, a] from rfl]
  rw [qsortSeg_two P [a, b] (by simp), hsort2]
  cases hab : P a b <;> simp

/-- Witness for the amended C8 at the out-of-order pair `[2, 1]` with
capacity 1. -/
theorem claim_C8_witness :
    const_quicksort natLt 1 [(2 : Nat), 1]
      = Except.ok (if natLt 2 1 = true then [(2 : Nat), 1] else [1, 2]) :=
  claim_C8_amended natLt 1 2 1 (by decide)

/-- Counterexample to C9: `[(1, 0), (1, 1)]` is already sorted under
first-component comparison (a valid strict weak ordering), yet
`const_quicksort` changes it — the two equivalent elements are swapped by
the two-element shortcut, so sorting a sorted sequence is not the
identity. -/
theorem claim_C9_counterexample :
    IsSWO pairFstLt ∧
    AdjOK pairFstLt [((1 : Nat), (0 : Nat)), (1, 1)] ∧
    const_quicksort pairFstLt 1024 [((1 : Nat), (0 : Nat)), (1, 1)]
      = Except.ok [(1, 1), (1, 0)] ∧
    [((1 : Nat), (1 : Nat)), (1, 0)] ≠ [((1 : Nat), (0 : Nat)), (1, 1)] := by
  refine ⟨pairFstLt_swo, ?_, by rfl, by decide⟩
  intro i hi
  simp only [List.length_cons, List.length_nil] at hi
  have hi0 : i = 0 := by omega
  subst hi0
  rfl

/-- Claim C9 (amended): for a sequence already sorted under a valid strict
weak ordering whose equivalent elements are equal (a strict total order),
`const_shellsort` returns the sequence unchanged, `const_quicksort` returns
it unchanged exactly when the capacity covers its stack depth (and panics
otherwise), and a successful `const_quicksort` is idempotent: re-running it
on its own output succeeds with the same output. -/
theorem claim_C9_amended {P : α → α → Bool} (hswo : IsSWO P)
    (hEq : ∀ a b, P a b = false → P b a = false → a = b)
    (arr : List α) (hsorted : AdjOK P arr) (cap : Nat) :
    const_shellsort P arr = arr ∧
    (const_quicksort P cap arr = Except.ok arr ↔ qsDepth P arr ≤ cap) ∧
    (∀ x s, const_quicksort P cap x = Except.ok s →
      const_quicksort P cap s = Except.ok s) := by
  refine ⟨const_shellsort_sorted_id hswo arr hsorted, ⟨?_, ?_⟩, ?_⟩
  · intro h
    exact ((const_quicksort_ok_iff P cap arr arr).mp h).1
  · intro h
    exact (const_quicksort_ok_iff P cap arr arr).mpr
      ⟨h, (qsortSeg_sorted_eq hswo hEq arr hsorted).symm⟩
  · intro x s h
    exact const_quicksort_idem hswo hEq cap x s h

/-- Witness for the amended C9 at the sorted input `[1, 2, 3]` under `<`
with capacity 1024. -/
theorem claim_C9_witness :
    const_shellsort natLt [1, 2, 3] = [1, 2, 3] ∧
    (const_quicksort natLt 1024 [1, 2, 3] = Except.ok [1, 2, 3]
      ↔ qsDepth natLt [1, 2, 3] ≤ 1024) ∧
    (∀ x s, const_quicksort natLt 1024 x = Except.ok s →
      const_quicksort natLt 1024 s = Except.ok s) :=
  claim_C9_amended natLt_swo natLt_total_eq [1, 2, 3]
    (by
      intro i hi
      simp only [List.length_cons, List.length_nil] at hi
      rcases i with _ | _ | i
      · rfl
      · rfl
      · exact absurd hi (by omega))
    1024

/-- Claim C10: `const_quicksort` pushes the whole input before any length
check, so with stack capacity 0 it panics on every input, the empty and
singleton sequences included. -/
theorem claim_C10_zero_cap (P : α → α → Bool) (arr : List α) :
    const_quicksort P 0 arr = Except.error () := by
  rw [const_quicksort_error_iff]
  exact qsDepth_pos P arr

end SortConstRs
